import Mathlib

/-
  Verification development for the iast toolkit: Struct-based AST nodes
  (iast/node.py), visitors and transformers (iast/visitor.py), and the
  unification-based pattern matching and rewriting engine (iast/pattern.py).

  The Python code is shallowly embedded: trees become an inductive type,
  the worklist unification loop becomes a fuel-indexed recursion, visitor
  classes become recursive functions, and exceptions become Except results.
-/

namespace Iast

/-- Primitive (non-node, non-sequence) field values: ints, strings,
booleans and Python's None, as they occur in Struct AST fields. -/
inductive Prim where
  | int (i : Int)
  | str (s : String)
  | boolv (b : Bool)
  | noneV
  deriving DecidableEq, Repr

/-- Runtime tree values of the pattern engine (iast/pattern.py):
a value is a PatVar node (class PatVar, single field id), an ordinary
AST node (its class name and field values in declaration order), a
tuple of values, or a primitive constant. -/
inductive Tree where
  | patvar (id : String)
  | node (cls : String) (fields : List Tree)
  | tup (elts : List Tree)
  | prim (p : Prim)

mutual
/-- Boolean structural equality on trees (Python == on Struct nodes). -/
def treeEq : Tree → Tree → Bool
  | .patvar a, .patvar b => a = b
  | .node c1 f1, .node c2 f2 => c1 = c2 && treeListEq f1 f2
  | .tup e1, .tup e2 => treeListEq e1 e2
  | .prim a, .prim b => a = b
  | _, _ => false
def treeListEq : List Tree → List Tree → Bool
  | [], [] => true
  | a :: as_, b :: bs => treeEq a b && treeListEq as_ bs
  | _, _ => false
end

mutual
theorem treeEq_iff : ∀ a b : Tree, treeEq a b = true ↔ a = b
  | .patvar _, .patvar _ => by simp [treeEq]
  | .patvar _, .node _ _ => by simp [treeEq]
  | .patvar _, .tup _ => by simp [treeEq]
  | .patvar _, .prim _ => by simp [treeEq]
  | .node _ _, .patvar _ => by simp [treeEq]
  | .node _ f1, .node _ f2 => by
      simp [treeEq, Bool.and_eq_true, treeListEq_iff f1 f2, decide_eq_true_iff]
  | .node _ _, .tup _ => by simp [treeEq]
  | .node _ _, .prim _ => by simp [treeEq]
  | .tup _, .patvar _ => by simp [treeEq]
  | .tup _, .node _ _ => by simp [treeEq]
  | .tup e1, .tup e2 => by simp [treeEq, treeListEq_iff e1 e2]
  | .tup _, .prim _ => by simp [treeEq]
  | .prim _, .patvar _ => by simp [treeEq]
  | .prim _, .node _ _ => by simp [treeEq]
  | .prim _, .tup _ => by simp [treeEq]
  | .prim _, .prim _ => by simp [treeEq]
theorem treeListEq_iff : ∀ a b : List Tree, treeListEq a b = true ↔ a = b
  | [], [] => by simp [treeListEq]
  | a :: as_, b :: bs => by
      simp [treeListEq, Bool.and_eq_true, treeEq_iff a b, treeListEq_iff as_ bs]
  | [], _ :: _ => by simp [treeListEq]
  | _ :: _, [] => by simp [treeListEq]
end

instance : DecidableEq Tree := fun a b => decidable_of_iff _ (treeEq_iff a b)

/-- Test for a PatVar node (Python isinstance(x, PatVar)). -/
def Tree.isPatVar : Tree → Bool
  | .patvar _ => true
  | _ => false

/-- Wildcards begin with two underscores (pattern.py, is_wildname;
Python id.startswith, read off the string's character list). -/
def is_wildname (id : String) : Bool :=
  match id.data with
  | '_' :: '_' :: _ => true
  | _ => false

/-- Substitutions: the mapping returned by raw_match, a Python dict
from pattern-variable identifier to tree, in insertion order. -/
abbrev Subst := List (String × Tree)

/-- Worklist of pending equations (raw_match's eqs list). The head of
this list is the top of the stack, i.e. the end of the Python list,
which is the element eqs.pop() removes. -/
abbrev Eqs := List (Tree × Tree)

/-- Lookup in an insertion-ordered dict with unique keys
(Python mapping.get(k, None)). -/
def dictGet (m : Subst) (k : String) : Option Tree :=
  match m with
  | [] => none
  | (k', v) :: rest => if k' = k then some v else dictGet rest k

/-- Update an insertion-ordered dict: replace the value of an existing
key in place, or append a new key at the end (Python d[k] = v). -/
def dictSet (m : Subst) (k : String) (v : Tree) : Subst :=
  match m with
  | [] => [(k, v)]
  | (k', v') :: rest => if k' = k then (k, v) :: rest else (k', v') :: dictSet rest k v

/- OccChecker (pattern.py): a NodeVisitor that sets a flag when it sees
a PatVar whose id equals the checked variable; generic_visit recurses
into every field, seq_visit into every element, and the visit_PatVar
handler does not recurse further. Embedded as a Bool-valued traversal.
Moved before the block: see OccChecker.visit. -/
mutual
def OccChecker.visit (var : String) : Tree → Bool
  | .patvar id => id = var
  | .node _ fs => OccChecker.visitList var fs
  | .tup es => OccChecker.visitList var es
  | .prim _ => false
def OccChecker.visitList (var : String) : List Tree → Bool
  | [] => false
  | t :: ts => OccChecker.visit var t || OccChecker.visitList var ts
end

/-- OccChecker.run(tree, var): does a PatVar named var occur in tree? -/
def OccChecker.run (tree : Tree) (var : String) : Bool :=
  OccChecker.visit var tree

/- VarExpander (pattern.py): a NodeTransformer whose visit_PatVar
returns mapping.get(node.id, None); None means no change, so a PatVar
not in the mapping stays, and a replacement is not recursed into. -/
mutual
def VarExpander.visit (mapping : Subst) : Tree → Tree
  | .patvar id =>
    match dictGet mapping id with
    | some t => t
    | none => .patvar id
  | .node c fs => .node c (VarExpander.visitList mapping fs)
  | .tup es => .tup (VarExpander.visitList mapping es)
  | .prim p => .prim p
def VarExpander.visitList (mapping : Subst) : List Tree → List Tree
  | [] => []
  | t :: ts => VarExpander.visit mapping t :: VarExpander.visitList mapping ts
end

/-- VarExpander.run(tree, mapping). -/
def VarExpander.run (tree : Tree) (mapping : Subst) : Tree :=
  VarExpander.visit mapping tree

/-- match_step (pattern.py): attempt to match lhs against rhs at the
top level; return the sub-equations that must still hold together with
the new variable bindings, or fail with a MatchFailure message. The
symmetric case (variable on the right only) is normalized in the source
by flipping lhs and rhs; here the flipped case is the third row. -/
def match_step (lhs rhs : Tree) :
    Except String (List (Tree × Tree) × Subst) :=
  match lhs, rhs with
  | .patvar id, .patvar id2 =>
    if id2 = id then .ok ([], [])
    else if OccChecker.run (.patvar id2) id then
      .error ("Circular match on " ++ id)
    else .ok ([], [(id, .patvar id2)])
  | .patvar id, rhs =>
    if OccChecker.run rhs id then
      .error ("Circular match on " ++ id)
    else .ok ([], [(id, rhs)])
  | lhs, .patvar id =>
    if OccChecker.run lhs id then
      .error ("Circular match on " ++ id)
    else .ok ([], [(id, lhs)])
  | .node c1 f1, .node c2 f2 =>
    if c1 = c2 then .ok (f1.zip f2, [])
    else .error ("Node " ++ c1 ++ " does not match node " ++ c2)
  | .node c1 _, _ => .error ("Node " ++ c1 ++ " does not match non-node")
  | .tup e1, .tup e2 =>
    if e1.length = e2.length then .ok (e1.zip e2, [])
    else .error "Sequences have different lengths"
  | .tup _, _ => .error "Sequence does not match non-sequence"
  | .prim a, .prim b =>
    if a = b then .ok ([], []) else .error "Constant mismatch"
  | .prim _, _ => .error "Constant does not match"

/-- bindvar (raw_match's local function): record var -> repl, then
replace var by repl in every recorded binding and in both sides of
every remaining worklist equation. -/
def bindvar (var : String) (repl : Tree) (result : Subst) (eqs : Eqs) :
    Subst × Eqs :=
  let r1 := dictSet result var repl
  let r2 := r1.map (fun kv => (kv.1, VarExpander.visit [(var, repl)] kv.2))
  let e2 := eqs.map (fun pq =>
    (VarExpander.visit [(var, repl)] pq.1, VarExpander.visit [(var, repl)] pq.2))
  (r2, e2)

/-- Main loop of raw_match: pop an equation off the end of the worklist,
run match_step, push its sub-equations, and apply bindvar for each new
binding. The fuel argument bounds the number of iterations; the Python
loop runs until the worklist is empty. -/
def rawMatchLoop : Nat → Eqs → Subst → Except String Subst
  | 0, _, _ => .error "out of fuel"
  | _ + 1, [], result => .ok result
  | fuel + 1, (l, r) :: rest, result =>
    match match_step l r with
    | .error e => .error e
    | .ok (newEqs, newBs) =>
      let eqs' := newEqs.reverse ++ rest
      let st := newBs.foldl
        (fun (acc : Subst × Eqs) kv => bindvar kv.1 kv.2 acc.1 acc.2)
        (result, eqs')
      rawMatchLoop fuel st.2 st.1

/-- raw_match (pattern.py): run the unification worklist starting from
the single equation (tree1, tree2); on success delete the wildcard
bindings from the result. -/
def raw_match (fuel : Nat) (tree1 tree2 : Tree) : Except String Subst :=
  (rawMatchLoop fuel [(tree1, tree2)] []).map
    (fun result => result.filter (fun kv => !is_wildname kv.1))

/-- match (pattern.py): same as raw_match but None instead of an
exception. -/
def match' (fuel : Nat) (tree1 tree2 : Tree) : Option Subst :=
  match raw_match fuel tree1 tree2 with
  | .ok s => some s
  | .error _ => none

/-- Replacement functions of the rewriting rules: called with the
substitution's bindings, returning a replacement tree or None. -/
abbrev Repl := Subst → Option Tree

/-- Splice step of NodeTransformer.seq_visit: a tuple-valued result is
spliced into the enclosing sequence, any other result is appended. -/
def spliceOne : Tree → List Tree
  | .tup es => es
  | t => [t]

/-- Result sequence of NodeTransformer.seq_visit: if no element changed
the original tuple is returned, otherwise the new sequence is built by
splicing each element's result. -/
def seqResult (orig results : List Tree) : List Tree :=
  if results = orig then orig else results.flatMap spliceOne

/-- Rule loop of PatternTransformer.visit: try each (pattern, repl)
pair in order against the already child-rewritten tree; on a match
whose repl returns a tree, stop with that tree; on a match whose repl
returns None, fall through to the next rule. -/
def PatternTransformer.tryRules (mf : Nat) :
    List (Tree × Repl) → Tree → Option Tree
  | [], _ => none
  | (pat, repl) :: rest, t =>
    match match' mf pat t with
    | some mapping =>
      match repl mapping with
      | some res => some res
      | none => PatternTransformer.tryRules mf rest t
    | none => PatternTransformer.tryRules mf rest t

/-- Tail of PatternTransformer.visit: run the rule loop on the already
child-rewritten tree sub; if no rule produced a replacement, sub (the
propagated subresult) is the result. -/
def PatternTransformer.afterChildren (mf : Nat) (rules : List (Tree × Repl))
    (sub : Tree) : Tree :=
  match PatternTransformer.tryRules mf rules sub with
  | some res => res
  | none => sub

/- PatternTransformer.visit (pattern.py): first rewrite the children
through the inherited NodeTransformer recursion (generic_visit over a
node's fields and seq_visit over a tuple's elements), then run the rule
loop on the child-rewritten tree. -/
mutual
def PatternTransformer.visit (mf : Nat) (rules : List (Tree × Repl)) :
    Tree → Tree
  | .node c fs =>
    PatternTransformer.afterChildren mf rules
      (.node c (PatternTransformer.visitEach mf rules fs))
  | .tup es =>
    PatternTransformer.afterChildren mf rules
      (.tup (seqResult es (PatternTransformer.visitEach mf rules es)))
  | .patvar id => PatternTransformer.afterChildren mf rules (.patvar id)
  | .prim p => PatternTransformer.afterChildren mf rules (.prim p)
def PatternTransformer.visitEach (mf : Nat) (rules : List (Tree × Repl)) :
    List Tree → List Tree
  | [] => []
  | t :: ts =>
    PatternTransformer.visit mf rules t ::
      PatternTransformer.visitEach mf rules ts
end

/-! Helper lemmas about the occurs-check and single-variable expansion. -/

theorem occursList_any (var : String) (l : List Tree) :
    OccChecker.visitList var l = l.any (fun t => OccChecker.visit var t) := by
  induction l with
  | nil => simp [OccChecker.visitList]
  | cons t ts ih => simp [OccChecker.visitList, ih]

theorem occurs_node_of_mem {k : String} {t : Tree} {fs : List Tree} (hm : t ∈ fs)
    (h : OccChecker.visit k t = true) (c : String) :
    OccChecker.visit k (.node c fs) = true := by
  simp [OccChecker.visit, occursList_any, List.any_eq_true]
  exact ⟨t, hm, h⟩

theorem occurs_tup_of_mem {k : String} {t : Tree} {es : List Tree} (hm : t ∈ es)
    (h : OccChecker.visit k t = true) :
    OccChecker.visit k (.tup es) = true := by
  simp [OccChecker.visit, occursList_any, List.any_eq_true]
  exact ⟨t, hm, h⟩

mutual
theorem VE_noocc (v : String) (r : Tree) :
    ∀ t, OccChecker.visit v t = false → VarExpander.visit [(v, r)] t = t
  | .patvar id, h => by
      simp [OccChecker.visit] at h
      simp [VarExpander.visit, dictGet, Ne.symm h]
  | .node c fs, h => by
      simp only [OccChecker.visit] at h
      simp [VarExpander.visit, VE_noocc_list v r fs h]
  | .tup es, h => by
      simp only [OccChecker.visit] at h
      simp [VarExpander.visit, VE_noocc_list v r es h]
  | .prim _, _ => rfl
theorem VE_noocc_list (v : String) (r : Tree) :
    ∀ l, OccChecker.visitList v l = false → VarExpander.visitList [(v, r)] l = l
  | [], _ => rfl
  | t :: ts, h => by
      simp only [OccChecker.visitList, Bool.or_eq_false_iff] at h
      simp [VarExpander.visitList, VE_noocc v r t h.1, VE_noocc_list v r ts h.2]
end

mutual
theorem VE_elim (v : String) (r : Tree) (hr : OccChecker.visit v r = false) :
    ∀ t, OccChecker.visit v (VarExpander.visit [(v, r)] t) = false
  | .patvar id => by
      by_cases hv : v = id
      · simpa [VarExpander.visit, dictGet, hv] using hr
      · simp [VarExpander.visit, dictGet, hv, OccChecker.visit, Ne.symm hv]
  | .node c fs => by
      simp [VarExpander.visit, OccChecker.visit, VE_elim_list v r hr fs]
  | .tup es => by
      simp [VarExpander.visit, OccChecker.visit, VE_elim_list v r hr es]
  | .prim p => by simp [VarExpander.visit, OccChecker.visit]
theorem VE_elim_list (v : String) (r : Tree) (hr : OccChecker.visit v r = false) :
    ∀ l, OccChecker.visitList v (VarExpander.visitList [(v, r)] l) = false
  | [] => rfl
  | t :: ts => by
      simp [VarExpander.visitList, OccChecker.visitList, VE_elim v r hr t,
        VE_elim_list v r hr ts]
end

mutual
theorem VE_pres (k v : String) (r : Tree) (hkr : OccChecker.visit k r = false) :
    ∀ t, OccChecker.visit k t = false →
      OccChecker.visit k (VarExpander.visit [(v, r)] t) = false
  | .patvar id, ht => by
      by_cases hv : v = id
      · simpa [VarExpander.visit, dictGet, hv] using hkr
      · simpa [VarExpander.visit, dictGet, hv] using ht
  | .node c fs, ht => by
      simp only [OccChecker.visit] at ht
      simp [VarExpander.visit, OccChecker.visit, VE_pres_list k v r hkr fs ht]
  | .tup es, ht => by
      simp only [OccChecker.visit] at ht
      simp [VarExpander.visit, OccChecker.visit, VE_pres_list k v r hkr es ht]
  | .prim p, _ => by simp [VarExpander.visit, OccChecker.visit]
theorem VE_pres_list (k v : String) (r : Tree) (hkr : OccChecker.visit k r = false) :
    ∀ l, OccChecker.visitList k l = false →
      OccChecker.visitList k (VarExpander.visitList [(v, r)] l) = false
  | [], _ => rfl
  | t :: ts, h => by
      simp only [OccChecker.visitList, Bool.or_eq_false_iff] at h
      simp [VarExpander.visitList, OccChecker.visitList, VE_pres k v r hkr t h.1,
        VE_pres_list k v r hkr ts h.2]
end

theorem dictSet_eq_append {m : Subst} {k : String} (hk : ∀ p ∈ m, p.1 ≠ k) (v : Tree) :
    dictSet m k v = m ++ [(k, v)] := by
  induction m with
  | nil => rfl
  | cons a rest ih =>
      obtain ⟨k', v'⟩ := a
      have h1 : k' ≠ k := hk (k', v') (by simp)
      simp [dictSet, h1, ih (fun p hp => hk p (by simp [hp]))]

/-- Sub-equations produced by a successful match_step only mention
variables already occurring in the popped equation's two sides. -/
theorem match_step_eqs_sub : ∀ (l r : Tree) {es : List (Tree × Tree)} {bs : Subst},
    match_step l r = .ok (es, bs) → ∀ {e : Tree × Tree}, e ∈ es → ∀ k : String,
    (OccChecker.visit k e.1 = true → OccChecker.visit k l = true ∨ OccChecker.visit k r = true) ∧
    (OccChecker.visit k e.2 = true → OccChecker.visit k l = true ∨ OccChecker.visit k r = true)
  | .patvar id, .patvar id2 => by
      intro h e he k
      simp only [match_step] at h
      split_ifs at h <;> simp_all
  | .patvar id, .node c2 f2 => by
      intro h e he k
      simp only [match_step] at h
      split_ifs at h <;> simp_all
  | .patvar id, .tup e2 => by
      intro h e he k
      simp only [match_step] at h
      split_ifs at h <;> simp_all
  | .patvar id, .prim b => by
      intro h e he k
      simp only [match_step] at h
      split_ifs at h <;> simp_all
  | .node c1 f1, .patvar id => by
      intro h e he k
      simp only [match_step] at h
      split_ifs at h <;> simp_all
  | .node c1 f1, .node c2 f2 => by
      intro h e he k
      simp only [match_step] at h
      split at h
      · obtain ⟨hes, _⟩ := by simpa using h
        subst hes
        obtain ⟨he1, he2⟩ := List.of_mem_zip he
        exact ⟨fun hk => .inl (occurs_node_of_mem he1 hk c1),
               fun hk => .inr (occurs_node_of_mem he2 hk c2)⟩
      · simp_all
  | .node c1 f1, .tup e2 => by
      intro h e he k
      simp [match_step] at h
  | .node c1 f1, .prim b => by
      intro h e he k
      simp [match_step] at h
  | .tup e1, .patvar id => by
      intro h e he k
      simp only [match_step] at h
      split_ifs at h <;> simp_all
  | .tup e1, .tup e2 => by
      intro h e he k
      simp only [match_step] at h
      split at h
      · obtain ⟨hes, _⟩ := by simpa using h
        subst hes
        obtain ⟨he1, he2⟩ := List.of_mem_zip he
        exact ⟨fun hk => .inl (occurs_tup_of_mem he1 hk),
               fun hk => .inr (occurs_tup_of_mem he2 hk)⟩
      · simp_all
  | .tup e1, .node c2 f2 => by
      intro h e he k
      simp [match_step] at h
  | .tup e1, .prim b => by
      intro h e he k
      simp [match_step] at h
  | .prim a, .patvar id => by
      intro h e he k
      simp only [match_step] at h
      split_ifs at h <;> simp_all
  | .prim a, .node c2 f2 => by
      intro h e he k
      simp [match_step] at h
  | .prim a, .tup e2 => by
      intro h e he k
      simp [match_step] at h
  | .prim a, .prim b => by
      intro h e he k
      simp only [match_step] at h
      split_ifs at h <;> simp_all

/-- Bindings produced by a successful match_step: either none, or a
single binding of a variable occurring as one side of the equation to
the other side, which passed the occurs-check. -/
theorem match_step_binds : ∀ (l r : Tree) {es : List (Tree × Tree)} {bs : Subst},
    match_step l r = .ok (es, bs) →
    bs = [] ∨ ∃ v repl, bs = [(v, repl)] ∧ OccChecker.visit v repl = false ∧
      ((l = .patvar v ∧ repl = r) ∨ (r = .patvar v ∧ repl = l))
  | .patvar id, .patvar id2 => by
      intro h
      simp only [match_step] at h
      split_ifs at h with h1 h2 <;>
        simp only [Except.ok.injEq, Prod.mk.injEq] at h <;>
        obtain ⟨he, hb⟩ := h <;> subst hb
      · exact .inl rfl
      · exact .inr ⟨id, .patvar id2, rfl, by simpa [OccChecker.run] using h2,
          .inl ⟨rfl, rfl⟩⟩
  | .patvar id, .node c2 f2 => by
      intro h
      simp only [match_step] at h
      split_ifs at h with h1
      simp only [Except.ok.injEq, Prod.mk.injEq] at h
      obtain ⟨he, hb⟩ := h
      subst hb
      exact .inr ⟨id, .node c2 f2, rfl, by simpa [OccChecker.run] using h1,
        .inl ⟨rfl, rfl⟩⟩
  | .patvar id, .tup e2 => by
      intro h
      simp only [match_step] at h
      split_ifs at h with h1
      simp only [Except.ok.injEq, Prod.mk.injEq] at h
      obtain ⟨he, hb⟩ := h
      subst hb
      exact .inr ⟨id, .tup e2, rfl, by simpa [OccChecker.run] using h1,
        .inl ⟨rfl, rfl⟩⟩
  | .patvar id, .prim b => by
      intro h
      simp only [match_step] at h
      split_ifs at h with h1
      simp only [Except.ok.injEq, Prod.mk.injEq] at h
      obtain ⟨he, hb⟩ := h
      subst hb
      exact .inr ⟨id, .prim b, rfl, by simpa [OccChecker.run] using h1,
        .inl ⟨rfl, rfl⟩⟩
  | .node c1 f1, .patvar id => by
      intro h
      simp only [match_step] at h
      split_ifs at h with h1
      simp only [Except.ok.injEq, Prod.mk.injEq] at h
      obtain ⟨he, hb⟩ := h
      subst hb
      exact .inr ⟨id, .node c1 f1, rfl, by simpa [OccChecker.run] using h1,
        .inr ⟨rfl, rfl⟩⟩
  | .node c1 f1, .node c2 f2 => by
      intro h
      simp only [match_step] at h
      split_ifs at h
      simp only [Except.ok.injEq, Prod.mk.injEq] at h
      exact .inl h.2.symm
  | .node c1 f1, .tup e2 => by intro h; simp [match_step] at h
  | .node c1 f1, .prim b => by intro h; simp [match_step] at h
  | .tup e1, .patvar id => by
      intro h
      simp only [match_step] at h
      split_ifs at h with h1
      simp only [Except.ok.injEq, Prod.mk.injEq] at h
      obtain ⟨he, hb⟩ := h
      subst hb
      exact .inr ⟨id, .tup e1, rfl, by simpa [OccChecker.run] using h1,
        .inr ⟨rfl, rfl⟩⟩
  | .tup e1, .tup e2 => by
      intro h
      simp only [match_step] at h
      split_ifs at h
      simp only [Except.ok.injEq, Prod.mk.injEq] at h
      exact .inl h.2.symm
  | .tup e1, .node c2 f2 => by intro h; simp [match_step] at h
  | .tup e1, .prim b => by intro h; simp [match_step] at h
  | .prim a, .patvar id => by
      intro h
      simp only [match_step] at h
      split_ifs at h with h1
      simp only [Except.ok.injEq, Prod.mk.injEq] at h
      obtain ⟨he, hb⟩ := h
      subst hb
      exact .inr ⟨id, .prim a, rfl, by simpa [OccChecker.run] using h1,
        .inr ⟨rfl, rfl⟩⟩
  | .prim a, .node c2 f2 => by intro h; simp [match_step] at h
  | .prim a, .tup e2 => by intro h; simp [match_step] at h
  | .prim a, .prim b => by
      intro h
      simp only [match_step] at h
      split_ifs at h
      simp only [Except.ok.injEq, Prod.mk.injEq] at h
      exact .inl h.2.symm

/-- Invariant of the raw_match worklist loop: if no recorded variable
occurs in any recorded range tree nor anywhere in the pending
equations, the final substitution has no recorded variable occurring
in any of its range trees. This is the idempotence invariant that
bindvar maintains at every step. -/
theorem rawMatchLoop_occ : ∀ (fuel : Nat) (eqs : Eqs) (result final : Subst),
    rawMatchLoop fuel eqs result = .ok final →
    (∀ p ∈ result, ∀ q ∈ result, OccChecker.visit p.1 q.2 = false) →
    (∀ p ∈ result, ∀ e ∈ eqs, OccChecker.visit p.1 e.1 = false ∧
      OccChecker.visit p.1 e.2 = false) →
    ∀ p ∈ final, ∀ q ∈ final, OccChecker.visit p.1 q.2 = false := by
  intro fuel
  induction fuel with
  | zero => intro eqs result final h _ _; simp [rawMatchLoop] at h
  | succ n ih =>
    intro eqs result final h hOF hDF
    match eqs with
    | [] =>
      simp only [rawMatchLoop, Except.ok.injEq] at h
      subst h
      exact hOF
    | (l, r) :: rest =>
      simp only [rawMatchLoop] at h
      cases hms : match_step l r with
      | error e => rw [hms] at h; simp at h
      | ok pr =>
        obtain ⟨newEqs, newBs⟩ := pr
        rw [hms] at h
        simp only at h
        have heqs' : ∀ p ∈ result, ∀ e ∈ (newEqs.reverse ++ rest : Eqs),
            OccChecker.visit p.1 e.1 = false ∧ OccChecker.visit p.1 e.2 = false := by
          intro p hp e he
          rcases List.mem_append.mp he with he1 | he2
          · have hem := List.mem_reverse.mp he1
            have hsub := match_step_eqs_sub l r hms hem p.1
            have hl := (hDF p hp (l, r) (by simp)).1
            have hr := (hDF p hp (l, r) (by simp)).2
            constructor
            · cases hv : OccChecker.visit p.1 e.1 with
              | false => rfl
              | true =>
                rcases hsub.1 hv with hc | hc
                · rw [hl] at hc; cases hc
                · rw [hr] at hc; cases hc
            · cases hv : OccChecker.visit p.1 e.2 with
              | false => rfl
              | true =>
                rcases hsub.2 hv with hc | hc
                · rw [hl] at hc; cases hc
                · rw [hr] at hc; cases hc
          · exact hDF p hp e (List.mem_cons_of_mem _ he2)
        rcases match_step_binds l r hms with hbs | ⟨v, repl, hbs, hvocc, hlr⟩
        · subst hbs
          simp only [List.foldl] at h
          exact ih _ _ _ h hOF heqs'
        · subst hbs
          simp only [List.foldl] at h
          have hkey : ∀ p ∈ result, p.1 ≠ v := by
            intro p hp
            rcases hlr with ⟨hl, _⟩ | ⟨hr, _⟩
            · have := (hDF p hp (l, r) (by simp)).1
              rw [hl] at this
              simp only [OccChecker.visit, decide_eq_false_iff_not] at this
              exact fun hc => this hc.symm
            · have := (hDF p hp (l, r) (by simp)).2
              rw [hr] at this
              simp only [OccChecker.visit, decide_eq_false_iff_not] at this
              exact fun hc => this hc.symm
          have hreplf : ∀ p ∈ result, OccChecker.visit p.1 repl = false := by
            intro p hp
            rcases hlr with ⟨_, hrepl⟩ | ⟨_, hrepl⟩
            · rw [hrepl]; exact (hDF p hp (l, r) (by simp)).2
            · rw [hrepl]; exact (hDF p hp (l, r) (by simp)).1
          have hset : dictSet result v repl = result ++ [(v, repl)] :=
            dictSet_eq_append hkey repl
          have hr2 : (bindvar v repl result (newEqs.reverse ++ rest)).1 =
              result.map (fun kv => (kv.1, VarExpander.visit [(v, repl)] kv.2)) ++
                [(v, repl)] := by
            simp [bindvar, hset, VE_noocc v repl repl hvocc]
          have he2 : (bindvar v repl result (newEqs.reverse ++ rest)).2 =
              (newEqs.reverse ++ rest).map (fun pq =>
                (VarExpander.visit [(v, repl)] pq.1,
                 VarExpander.visit [(v, repl)] pq.2)) := by
            simp [bindvar]
          rw [hr2, he2] at h
          refine ih _ _ _ h ?_ ?_
          · intro p hp q hq
            rcases List.mem_append.mp hp with hp1 | hp2
            · obtain ⟨p0, hp0, hpe⟩ := List.mem_map.mp hp1
              have hkr : OccChecker.visit p.1 repl = false := by
                rw [← hpe]; exact hreplf p0 hp0
              rcases List.mem_append.mp hq with hq1 | hq2
              · obtain ⟨q0, hq0, hqe⟩ := List.mem_map.mp hq1
                rw [← hqe]
                have hp1eq : p.1 = p0.1 := by rw [← hpe]
                rw [hp1eq]
                exact VE_pres p0.1 v repl (by rw [← hp1eq]; exact hkr) q0.2
                  (hOF p0 hp0 q0 hq0)
              · have hq' : q = (v, repl) := by simpa using hq2
                rw [hq']; exact hkr
            · have hp' : p = (v, repl) := by simpa using hp2
              rcases List.mem_append.mp hq with hq1 | hq2
              · obtain ⟨q0, hq0, hqe⟩ := List.mem_map.mp hq1
                rw [← hqe, hp']
                exact VE_elim v repl hvocc q0.2
              · have hq' : q = (v, repl) := by simpa using hq2
                rw [hq', hp']; exact hvocc
          · intro p hp e he
            obtain ⟨e0, he0, hee⟩ := List.mem_map.mp he
            rcases List.mem_append.mp hp with hp1 | hp2
            · obtain ⟨p0, hp0, hpe⟩ := List.mem_map.mp hp1
              have hkr : OccChecker.visit p.1 repl = false := by
                rw [← hpe]; exact hreplf p0 hp0
              have hp1eq : p.1 = p0.1 := by rw [← hpe]
              rw [← hee]
              constructor
              · rw [hp1eq]
                exact VE_pres p0.1 v repl (by rw [← hp1eq]; exact hkr) e0.1
                  (heqs' p0 hp0 e0 he0).1
              · rw [hp1eq]
                exact VE_pres p0.1 v repl (by rw [← hp1eq]; exact hkr) e0.2
                  (heqs' p0 hp0 e0 he0).2
            · have hp' : p = (v, repl) := by simpa using hp2
              rw [← hee, hp']
              exact ⟨VE_elim v repl hvocc e0.1, VE_elim v repl hvocc e0.2⟩

/-! Claim theorems for the unification engine. -/

/-- C7: for every pair of trees on which raw_match succeeds, the
returned substitution is idempotent: no pattern-variable identifier in
the mapping's domain occurs (as a PatVar) anywhere inside any tree in
the mapping's range; the worklist algorithm maintains the invariant at
every step by substituting each new binding through all recorded
bindings and remaining equations (rawMatchLoop_occ). -/
theorem raw_match_idempotent (fuel : Nat) (t1 t2 : Tree) (s : Subst)
    (h : raw_match fuel t1 t2 = .ok s) :
    ∀ p ∈ s, ∀ q ∈ s, OccChecker.run q.2 p.1 = false := by
  unfold raw_match at h
  cases hl : rawMatchLoop fuel [(t1, t2)] [] with
  | error e => rw [hl] at h; simp [Except.map] at h
  | ok s0 =>
    rw [hl] at h
    simp only [Except.map, Except.ok.injEq] at h
    subst h
    intro p hp q hq
    have hp0 := (List.mem_filter.mp hp).1
    have hq0 := (List.mem_filter.mp hq).1
    simpa [OccChecker.run] using
      rawMatchLoop_occ fuel [(t1, t2)] [] s0 hl (by simp) (by simp) p hp0 q hq0

/-- C7 witness: a concrete successful match whose substitution the
theorem shows to be idempotent, instantiated at two of its entries. -/
theorem raw_match_idempotent_witness :
    OccChecker.run (Tree.prim (.int 1)) "_Z" = false :=
  raw_match_idempotent 20
    (.tup [.tup [.patvar "_X", .patvar "_Y"], .node "BinOp" [.patvar "_Z", .patvar "__0"]])
    (.tup [.tup [.prim (.int 1), .patvar "_Z"], .node "BinOp" [.prim (.int 2), .prim (.int 3)]])
    [("_Z", .prim (.int 2)), ("_Y", .prim (.int 2)), ("_X", .prim (.int 1))]
    rfl
    ("_Z", .prim (.int 2)) (by simp)
    ("_X", .prim (.int 1)) (by simp)

/-- C4: if the pattern variable X occurs as a proper subterm of t, then
matching PatVar(X) against t fails: raw_match raises MatchFailure with
a circularity error and match returns None. The failure happens on the
very first worklist step, so one unit of fuel suffices: the computation
neither succeeds nor loops. -/
theorem match_occurs_check_fails (X : String) (t : Tree) (fuel : Nat)
    (hocc : OccChecker.run t X = true) (hne : t ≠ .patvar X) (hf : 1 ≤ fuel) :
    raw_match fuel (.patvar X) t = .error ("Circular match on " ++ X) ∧
    match' fuel (.patvar X) t = none := by
  obtain ⟨n, rfl⟩ : ∃ n, fuel = n + 1 := ⟨fuel - 1, by omega⟩
  have hstep : match_step (.patvar X) t = .error ("Circular match on " ++ X) := by
    cases t with
    | patvar id2 =>
      simp only [OccChecker.run, OccChecker.visit, decide_eq_true_eq] at hocc
      exact absurd (by rw [hocc]) hne
    | node c fs => simp [match_step, hocc]
    | tup es => simp [match_step, hocc]
    | prim p => simp [match_step, hocc]
  have hloop : rawMatchLoop (n + 1) [(.patvar X, t)] [] =
      .error ("Circular match on " ++ X) := by
    simp only [rawMatchLoop, hstep]
  exact ⟨by simp [raw_match, hloop, Except.map],
         by simp [match', raw_match, hloop, Except.map]⟩

/-- C4 witness: the occurs-check scenario of the spec, with the
variable occurring inside the right-hand side. -/
theorem match_occurs_check_fails_witness :
    raw_match 5 (.patvar "_X")
        (.node "BinOp" [.patvar "_X", .node "Add" [], .prim (.int 1)]) =
      .error ("Circular match on _X") ∧
    match' 5 (.patvar "_X")
        (.node "BinOp" [.patvar "_X", .node "Add" [], .prim (.int 1)]) = none :=
  match_occurs_check_fails "_X"
    (.node "BinOp" [.patvar "_X", .node "Add" [], .prim (.int 1)]) 5
    rfl (by decide) (by omega)

/-- C3 counterexample: a wildcard (a PatVar whose id begins with two
underscores) does not match "with no sub-equations and no bindings
regardless of what the other side is": match_step binds the wildcard
to the other side like any variable, and even fails with a circularity
error when the wildcard occurs inside the other side. -/
theorem wildcard_match_counterexample :
    match_step (.patvar "__0") (.prim (.int 1)) =
      .ok ([], [("__0", .prim (.int 1))]) ∧
    match_step (.patvar "__0") (.node "BinOp" [.patvar "__0", .prim (.int 1)]) =
      .error ("Circular match on __0") :=
  ⟨rfl, rfl⟩

/-- C3 amended: a wildcard behaves like an ordinary pattern variable
during matching (it is bound to the other side, after an occurs-check),
but raw_match deletes wildcard bindings from the final result, so the
substitution returned by a successful raw_match or match never contains
a binding for a wildcard identifier. -/
theorem raw_match_no_wildcard_bindings :
    (∀ (fuel : Nat) (t1 t2 : Tree) (s : Subst), raw_match fuel t1 t2 = .ok s →
      ∀ p ∈ s, is_wildname p.1 = false) ∧
    (∀ (id : String) (rhs : Tree), is_wildname id = true → rhs ≠ .patvar id →
      OccChecker.run rhs id = false →
      match_step (.patvar id) rhs = .ok ([], [(id, rhs)])) := by
  constructor
  · intro fuel t1 t2 s h p hp
    unfold raw_match at h
    cases hl : rawMatchLoop fuel [(t1, t2)] [] with
    | error e => rw [hl] at h; simp [Except.map] at h
    | ok s0 =>
      rw [hl] at h
      simp only [Except.map, Except.ok.injEq] at h
      subst h
      simpa using (List.mem_filter.mp hp).2
  · intro id rhs hw hne hocc
    cases rhs with
    | patvar id2 =>
      have h2 : ¬ id2 = id := fun hc => hne (by rw [hc])
      simp only [OccChecker.run, OccChecker.visit] at hocc
      simp [match_step, h2, OccChecker.run, OccChecker.visit, hocc]
    | node c fs => simp [match_step, hocc]
    | tup es => simp [match_step, hocc]
    | prim p => simp [match_step, hocc]

/-- C3 witness: the first part applied to a successful match containing
a wildcard, the second to a concrete wildcard equation. -/
theorem raw_match_no_wildcard_bindings_witness :
    is_wildname "_Y" = false ∧
    match_step (.patvar "__1") (.prim (.int 7)) =
      .ok ([], [("__1", .prim (.int 7))]) :=
  ⟨raw_match_no_wildcard_bindings.1 9
      (.tup [.patvar "__0", .patvar "_Y"])
      (.tup [.prim (.int 1), .prim (.int 2)])
      [("_Y", .prim (.int 2))] rfl ("_Y", .prim (.int 2)) (by simp),
   raw_match_no_wildcard_bindings.2 "__1" (.prim (.int 7)) rfl (by decide) rfl⟩

/-- Removing a rule whose replacement always returns None does not
change the outcome of the rule loop: on a match the None result falls
through to the remaining rules. -/
theorem tryRules_skip (mf : Nat) (p : Tree) (r0 : Repl) (hr : ∀ m, r0 m = none) :
    ∀ (rules1 rules2 : List (Tree × Repl)) (t : Tree),
      PatternTransformer.tryRules mf (rules1 ++ (p, r0) :: rules2) t =
      PatternTransformer.tryRules mf (rules1 ++ rules2) t := by
  intro rules1
  induction rules1 with
  | nil =>
    intro rules2 t
    simp only [List.nil_append, PatternTransformer.tryRules]
    cases hm : match' mf p t with
    | none => simp
    | some m => simp [hr m]
  | cons a rules1 ih =>
    intro rules2 t
    obtain ⟨pa, ra⟩ := a
    simp only [List.cons_append, PatternTransformer.tryRules]
    cases hm : match' mf pa t with
    | none => simpa using ih rules2 t
    | some m =>
      cases hra : ra m with
      | some res => simp [hra]
      | none => simpa [hra] using ih rules2 t

theorem afterChildren_skip (mf : Nat) (p : Tree) (r0 : Repl)
    (hr : ∀ m, r0 m = none) (rules1 rules2 : List (Tree × Repl)) (sub : Tree) :
    PatternTransformer.afterChildren mf (rules1 ++ (p, r0) :: rules2) sub =
    PatternTransformer.afterChildren mf (rules1 ++ rules2) sub := by
  simp [PatternTransformer.afterChildren, tryRules_skip mf p r0 hr rules1 rules2]

mutual
theorem PT_skip_visit (mf : Nat) (p : Tree) (r0 : Repl) (hr : ∀ m, r0 m = none)
    (rules1 rules2 : List (Tree × Repl)) :
    ∀ t, PatternTransformer.visit mf (rules1 ++ (p, r0) :: rules2) t =
         PatternTransformer.visit mf (rules1 ++ rules2) t
  | .node c fs => by
      simp only [PatternTransformer.visit,
        PT_skip_each mf p r0 hr rules1 rules2 fs,
        afterChildren_skip mf p r0 hr rules1 rules2]
  | .tup es => by
      simp only [PatternTransformer.visit,
        PT_skip_each mf p r0 hr rules1 rules2 es,
        afterChildren_skip mf p r0 hr rules1 rules2]
  | .patvar id => by
      simp only [PatternTransformer.visit,
        afterChildren_skip mf p r0 hr rules1 rules2]
  | .prim pr => by
      simp only [PatternTransformer.visit,
        afterChildren_skip mf p r0 hr rules1 rules2]
theorem PT_skip_each (mf : Nat) (p : Tree) (r0 : Repl) (hr : ∀ m, r0 m = none)
    (rules1 rules2 : List (Tree × Repl)) :
    ∀ l, PatternTransformer.visitEach mf (rules1 ++ (p, r0) :: rules2) l =
         PatternTransformer.visitEach mf (rules1 ++ rules2) l
  | [] => rfl
  | t :: ts => by
      simp only [PatternTransformer.visitEach,
        PT_skip_visit mf p r0 hr rules1 rules2 t,
        PT_skip_each mf p r0 hr rules1 rules2 ts]
end

/-- C1 counterexample: with two rules whose patterns both match the
node Num(1), the first rule's replacement returning None does not stop
the rule loop: the second rule is tried and its replacement Num(2) is
the final result, rather than the child-rewritten node Num(1). -/
theorem PatternTransformer_none_counterexample :
    match' 9 (.node "Num" [.patvar "_X"]) (.node "Num" [.prim (.int 1)]) =
      some [("_X", .prim (.int 1))] ∧
    PatternTransformer.visit 9
      [(.node "Num" [.patvar "_X"], fun _ => none),
       (.node "Num" [.patvar "_X"], fun _ => some (.node "Num" [.prim (.int 2)]))]
      (.node "Num" [.prim (.int 1)]) = .node "Num" [.prim (.int 2)] ∧
    (Tree.node "Num" [.prim (.int 2)]) ≠ (Tree.node "Num" [.prim (.int 1)]) :=
  ⟨rfl, rfl, by decide⟩

/-- C1 amended: when a rule's pattern matches and its replacement
returns None, the rule loop continues with the subsequent rules (None
defers, it does not stop): a rule whose replacement always returns
None can be deleted from the rule list without changing the result of
PatternTransformer.visit on any tree; the child-rewritten node is kept
only when no rule matches with a non-None replacement. -/
theorem PatternTransformer_none_defers (mf : Nat) (p : Tree) (r0 : Repl)
    (hr : ∀ m, r0 m = none) (rules1 rules2 : List (Tree × Repl)) (t : Tree) :
    PatternTransformer.visit mf (rules1 ++ (p, r0) :: rules2) t =
    PatternTransformer.visit mf (rules1 ++ rules2) t :=
  PT_skip_visit mf p r0 hr rules1 rules2 t

/-- C1 amended witness: deleting an always-None rule between two other
rules leaves the transformation result unchanged on a concrete tree. -/
theorem PatternTransformer_none_defers_witness :
    PatternTransformer.visit 9
      ([(.node "Num" [.patvar "_X"], fun _ => none)] ++
        (.patvar "_W", fun _ => none) ::
          [(.node "Num" [.patvar "_X"], fun _ => some (.node "Num" [.prim (.int 2)]))])
      (.node "Num" [.prim (.int 1)]) =
    PatternTransformer.visit 9
      ([(.node "Num" [.patvar "_X"], fun _ => none)] ++
        [(.node "Num" [.patvar "_X"], fun _ => some (.node "Num" [.prim (.int 2)]))])
      (.node "Num" [.prim (.int 1)]) :=
  PatternTransformer_none_defers 9 (.patvar "_W") (fun _ => none) (fun _ => rfl)
    [(.node "Num" [.patvar "_X"], fun _ => none)]
    [(.node "Num" [.patvar "_X"], fun _ => some (.node "Num" [.prim (.int 2)]))]
    (.node "Num" [.prim (.int 1)])

/-! Embedding of visitor.py's NodeTransformer. Python objects are
modelled with an explicit address label on every node and tuple, so
that reference identity (Python "is") is expressible: two node or
tuple objects are the same object exactly when they are equal as
labelled values, and rebuilding allocates a fresh address from a
counter that is larger than every address in the input tree.
Primitives carry no label: the only identity comparisons the code
performs are between a visit result and the visited value itself,
and for primitives the result is returned unchanged. Python's None
is the interned Prim.noneV. -/

/-- Heap-labelled runtime objects for the visitor claims. -/
inductive Obj where
  | node (addr : Nat) (cls : String) (fields : List Obj)
  | tup (addr : Nat) (elts : List Obj)
  | prim (p : Prim)

mutual
/-- Boolean equality on labelled objects (identity of objects in a
well-formed heap). -/
def objEq : Obj → Obj → Bool
  | .node a1 c1 f1, .node a2 c2 f2 => a1 = a2 && (c1 = c2 && objListEq f1 f2)
  | .tup a1 e1, .tup a2 e2 => a1 = a2 && objListEq e1 e2
  | .prim p1, .prim p2 => p1 = p2
  | _, _ => false
def objListEq : List Obj → List Obj → Bool
  | [], [] => true
  | a :: as_, b :: bs => objEq a b && objListEq as_ bs
  | _, _ => false
end

mutual
theorem objEq_iff : ∀ a b : Obj, objEq a b = true ↔ a = b
  | .node _ f1 _, .node _ f2 _ => by
      simp [objEq, objListEq_iff, decide_eq_true_iff]
  | .node _ _ _, .tup _ _ => by simp [objEq]
  | .node _ _ _, .prim _ => by simp [objEq]
  | .tup _ e1, .node _ _ e2 => by simp [objEq]
  | .tup _ e1, .tup _ e2 => by simp [objEq, objListEq_iff e1 e2]
  | .tup _ _, .prim _ => by simp [objEq]
  | .prim _, .node _ _ _ => by simp [objEq]
  | .prim _, .tup _ _ => by simp [objEq]
  | .prim _, .prim _ => by simp [objEq]
theorem objListEq_iff : ∀ a b : List Obj, objListEq a b = true ↔ a = b
  | [], [] => by simp [objListEq]
  | a :: as_, b :: bs => by
      simp [objListEq, objEq_iff a b, objListEq_iff as_ bs]
  | [], _ :: _ => by simp [objListEq]
  | _ :: _, [] => by simp [objListEq]
end

instance : DecidableEq Obj := fun a b => decidable_of_iff _ (objEq_iff a b)

/-- Python's interned None object. -/
def pyNone : Obj := .prim .noneV

/-- Result of a visit, Python value-or-None; none is the None object. -/
abbrev VRes := Option Obj

/-- Coerce a visit result to the value it stands for when stored. -/
def resToObj (r : VRes) : Obj := r.getD pyNone

/-- Handler of a NodeTransformer subclass (a visit_X method): takes the
node and the allocation counter, returns a replacement node or None. -/
abbrev Handler := Obj → Nat → VRes × Nat

/-- Handler table: which visit_X methods the subclass defines, looked
up by node class name (visitor.py, node_visit's getattr). -/
abbrev Handlers := String → Option Handler

/-- Is the object a tuple? (Python isinstance(x, tuple)). -/
def Obj.isTup : Obj → Bool
  | .tup _ _ => true
  | _ => false

/- NodeTransformer (visitor.py), embedded as mutually recursive
functions threading the allocation counter.

NodeTransformer.visit: dispatch as NodeVisitor.visit (node_visit with
the subclass handler if one exists for the class, else generic_visit;
tuples to seq_visit; anything else returned unchanged), then, when
_nochange_none is set and the input is an AST node and the result is
None, resolve the result to the input node.

generic_visit (inlined in the node branch): visit every field in
order; if no field's result differs from the field value by object
identity, return the original node, otherwise build a replacement node
(node._replace) carrying a fresh address.

seq_visit (inlined in the tup branch): visit every element in order;
a tuple-valued result is spliced in place of the element, any other
result is appended; if no element's result differs by identity the
original tuple object is returned, otherwise a fresh tuple is built.

NT.visit_fields and NT.seq_items return (values, changed, counter). -/
mutual
def NT.visit (H : Handlers) (ncn : Bool) : Obj → Nat → VRes × Nat
  | .node a c fs, ctr =>
    let r :=
      match H c with
      | some h => h (.node a c fs) ctr
      | none =>
        let st := NT.visit_fields H ncn fs ctr
        if st.2.1 then (some (.node st.2.2 c st.1), st.2.2 + 1)
        else (some (.node a c fs), st.2.2)
    if ncn && r.1.isNone then (some (.node a c fs), r.2) else r
  | .tup a es, ctr =>
    let st := NT.seq_items H ncn es ctr
    if st.2.1 then (some (.tup st.2.2 st.1), st.2.2 + 1)
    else (some (.tup a es), st.2.2)
  | .prim p, ctr => (some (.prim p), ctr)
def NT.visit_fields (H : Handlers) (ncn : Bool) : List Obj → Nat → List Obj × Bool × Nat
  | [], ctr => ([], false, ctr)
  | f :: fs, ctr =>
    let r := NT.visit H ncn f ctr
    let v := resToObj r.1
    let st := NT.visit_fields H ncn fs r.2
    (v :: st.1, (decide (v ≠ f) || st.2.1, st.2.2))
def NT.seq_items (H : Handlers) (ncn : Bool) : List Obj → Nat → List Obj × Bool × Nat
  | [], ctr => ([], false, ctr)
  | it :: its, ctr =>
    let r := NT.visit H ncn it ctr
    let v := resToObj r.1
    let st := NT.seq_items H ncn its r.2
    ((match v with | .tup _ es => es | x => [x]) ++ st.1,
     (decide (v ≠ it) || st.2.1, st.2.2))
end

/-- NodeTransformer.process (inherited from NodeVisitor): the public
entry point simply calls visit. -/
def NT.process (H : Handlers) (ncn : Bool) (tree : Obj) (ctr : Nat) : VRes × Nat :=
  NT.visit H ncn tree ctr

mutual
/-- With _nochange_none set, a transformer all of whose handlers return
None returns its input object itself, at every node. -/
theorem noop_visit (H : Handlers)
    (hH : ∀ cls h, H cls = some h → ∀ n c, (h n c).1 = none) :
    ∀ (t : Obj) (c : Nat), (NT.visit H true t c).1 = some t
  | .node a cl fs, ctr => by
      cases hHc : H cl with
      | some h =>
        have hr := hH cl h hHc (.node a cl fs) ctr
        simp [NT.visit, hHc, hr, Option.isNone]
      | none =>
        have hch := noop_fields H hH fs ctr
        simp [NT.visit, hHc, hch]
  | .tup a es, ctr => by
      have hch := noop_seq H hH es ctr
      simp [NT.visit, hch]
  | .prim p, ctr => rfl
theorem noop_fields (H : Handlers)
    (hH : ∀ cls h, H cls = some h → ∀ n c, (h n c).1 = none) :
    ∀ (l : List Obj) (c : Nat), (NT.visit_fields H true l c).2.1 = false
  | [], _ => rfl
  | f :: fs, ctr => by
      have hv := noop_visit H hH f ctr
      have hrest := noop_fields H hH fs (NT.visit H true f ctr).2
      simp [NT.visit_fields, hv, resToObj, hrest]
theorem noop_seq (H : Handlers)
    (hH : ∀ cls h, H cls = some h → ∀ n c, (h n c).1 = none) :
    ∀ (l : List Obj) (c : Nat), (NT.seq_items H true l c).2.1 = false
  | [], _ => rfl
  | it :: its, ctr => by
      have hv := noop_visit H hH it ctr
      have hrest := noop_seq H hH its (NT.visit H true it ctr).2
      simp [NT.seq_items, hv, resToObj, hrest]
end

/-- C5: a NodeTransformer all of whose handlers return no-value
(including the default with no visit_X handlers at all) satisfies
process(t) is t for every input tree t (node, sequence or primitive):
the result resolves to the original input object itself, never a null
result. -/
theorem NT_noop_is_identity (H : Handlers)
    (hH : ∀ cls h, H cls = some h → ∀ n c, (h n c).1 = none)
    (t : Obj) (c : Nat) :
    (NT.process H true t c).1 = some t :=
  noop_visit H hH t c

/-- C5 witness: a transformer with one always-None handler and a tree
exercising node, sequence and primitive cases. -/
theorem NT_noop_is_identity_witness :
    (NT.process
      (fun cls => if cls = "Num" then some (fun _ c => (none, c)) else none)
      true
      (.node 1 "Expr" [.tup 2 [.node 3 "Num" [.prim (.int 5)]], .prim .noneV])
      10).1 =
    some (.node 1 "Expr" [.tup 2 [.node 3 "Num" [.prim (.int 5)]], .prim .noneV]) :=
  NT_noop_is_identity
    (fun cls => if cls = "Num" then some (fun _ c => (none, c)) else none)
    (by
      intro cls h hcl n c
      by_cases hc : cls = "Num" <;> simp [hc] at hcl <;> simp [← hcl])
    (.node 1 "Expr" [.tup 2 [.node 3 "Num" [.prim (.int 5)]], .prim .noneV])
    10

/-- C10: with the default _nochange_none = True, a NodeTransformer can
never replace an existing node with an actual None: visiting a node
never yields a null result, and a handler returning None resolves to
the original node; nulling a node this way is possible exactly when
_nochange_none is set to False. -/
theorem NT_nochange_none_protects :
    (∀ (H : Handlers) (a : Nat) (cls : String) (fs : List Obj) (c : Nat),
      (NT.visit H true (.node a cls fs) c).1 ≠ none) ∧
    (∀ (H : Handlers) (h : Handler) (a : Nat) (cls : String) (fs : List Obj) (c : Nat),
      H cls = some h → (h (.node a cls fs) c).1 = none →
      (NT.visit H true (.node a cls fs) c).1 = some (.node a cls fs)) ∧
    (∃ (H : Handlers) (a : Nat) (cls : String) (fs : List Obj) (c : Nat),
      (NT.visit H false (.node a cls fs) c).1 = none) := by
  refine ⟨?_, ?_, ?_⟩
  · intro H a cls fs c
    cases hHc : H cls with
    | some h =>
      cases hr : (h (.node a cls fs) c).1 with
      | none => simp [NT.visit, hHc, hr]
      | some x => simp [NT.visit, hHc, hr]
    | none =>
      cases hch : (NT.visit_fields H true fs c).2.1 with
      | false => simp [NT.visit, hHc, hch]
      | true => simp [NT.visit, hHc, hch]
  · intro H h a cls fs c hHc hr
    simp [NT.visit, hHc, hr]
  · exact ⟨fun _ => some (fun _ c => (none, c)), 0, "X", [], 0, rfl⟩

/-- C10 witness: the None-protection applied to a concrete handler that
returns None for class Num. -/
theorem NT_nochange_none_protects_witness :
    (NT.visit (fun _ => some (fun _ c => (none, c))) true
      (.node 0 "Num" []) 5).1 = some (.node 0 "Num" []) :=
  NT_nochange_none_protects.2.1 (fun _ => some (fun _ c => (none, c)))
    (fun _ c => (none, c)) 0 "Num" [] 5 rfl rfl

/-! Machinery for the sharing claim: addresses of a tree, paths and
subtrees, and the one-leaf-replacing transformer. -/

mutual
/-- Addresses (object identities) of all node and tuple objects in a
tree, root first. -/
def Obj.addrs : Obj → List Nat
  | .node a _ fs => a :: Obj.addrsList fs
  | .tup a es => a :: Obj.addrsList es
  | .prim _ => []
def Obj.addrsList : List Obj → List Nat
  | [] => []
  | t :: ts => Obj.addrs t ++ Obj.addrsList ts
end

mutual
/-- Well-formedness of AST-shaped trees: a tuple never directly
contains another tuple (ASDL sequences hold nodes or primitives), as
in every tree built from the generated node types. -/
def Obj.noTT : Obj → Bool
  | .node _ _ fs => Obj.noTTList fs
  | .tup _ es => Obj.noTTElems es
  | .prim _ => true
def Obj.noTTList : List Obj → Bool
  | [] => true
  | t :: ts => Obj.noTT t && Obj.noTTList ts
def Obj.noTTElems : List Obj → Bool
  | [] => true
  | t :: ts => (!t.isTup) && (Obj.noTT t && Obj.noTTElems ts)
end

/-- Child of a node (field i in declaration order) or tuple (element i). -/
def childAt : Obj → Nat → Option Obj
  | .node _ _ fs, i => fs[i]?
  | .tup _ es, i => es[i]?
  | .prim _, _ => none

/-- Subtree at a path of child indices from the root. -/
def subtreeAt : Obj → List Nat → Option Obj
  | t, [] => some t
  | t, i :: p =>
    match childAt t i with
    | some ch => subtreeAt ch p
    | none => none

/-- Address of the root object, when it is a node or tuple. -/
def rootAddr : Obj → Option Nat
  | .node a _ _ => some a
  | .tup a _ => some a
  | .prim _ => none

/-- Handler table of a transformer that replaces exactly one leaf: a
single visit_X handler, for class lc, which returns a freshly
allocated replacement node of class rc at the node whose address is
aT, and returns None (no change) at every other node of that class. -/
def replaceHandler (lc : String) (aT : Nat) (rc : String) : Handlers :=
  fun c =>
    if c = lc then
      some (fun n ctr =>
        match n with
        | .node a _ _ =>
          if a = aT then (some (.node ctr rc []), ctr + 1) else (none, ctr)
        | _ => (none, ctr))
    else none

theorem addrsList_mem {x : Nat} : ∀ {f : Obj} {l : List Obj}, f ∈ l →
    x ∈ f.addrs → x ∈ Obj.addrsList l := by
  intro f l hf hx
  induction l with
  | nil => cases hf
  | cons g gs ih =>
    rcases List.mem_cons.mp hf with h | h
    · subst h; simp [Obj.addrsList, List.mem_append]; exact .inl hx
    · simp [Obj.addrsList, List.mem_append]; exact .inr (ih h)

theorem addrsList_append : ∀ (l1 l2 : List Obj),
    Obj.addrsList (l1 ++ l2) = Obj.addrsList l1 ++ Obj.addrsList l2 := by
  intro l1 l2
  induction l1 with
  | nil => simp [Obj.addrsList]
  | cons f fs ih => simp [Obj.addrsList, ih]

theorem rootAddr_mem : ∀ {u : Obj} {b : Nat}, rootAddr u = some b → b ∈ u.addrs := by
  intro u b h
  cases u <;> simp [rootAddr] at h <;> simp [Obj.addrs, ← h]

theorem childAt_addrs {t ch : Obj} {i : Nat} (h : childAt t i = some ch) :
    ∀ x ∈ ch.addrs, x ∈ t.addrs := by
  intro x hx
  cases t with
  | node a c fs =>
    simp only [childAt] at h
    have hm := List.getElem?_mem h
    simp [Obj.addrs]
    exact .inr (addrsList_mem hm hx)
  | tup a es =>
    simp only [childAt] at h
    have hm := List.getElem?_mem h
    simp [Obj.addrs]
    exact .inr (addrsList_mem hm hx)
  | prim p => simp [childAt] at h

theorem subtreeAt_addrs : ∀ (p : List Nat) {t u : Obj}, subtreeAt t p = some u →
    ∀ x ∈ u.addrs, x ∈ t.addrs := by
  intro p
  induction p with
  | nil => intro t u h x hx; simp [subtreeAt] at h; subst h; exact hx
  | cons i ps ih =>
    intro t u h x hx
    simp only [subtreeAt] at h
    cases hc : childAt t i with
    | none => rw [hc] at h; simp at h
    | some ch =>
      rw [hc] at h
      simp only at h
      exact childAt_addrs hc x (ih h x hx)

mutual
/-- A subtree that does not contain the target address is returned
unchanged, as the same object, without consuming the counter. -/
theorem untouched_visit (lc : String) (aT : Nat) (rc : String) :
    ∀ (t : Obj) (c : Nat), aT ∉ t.addrs → Obj.noTT t = true →
      NT.visit (replaceHandler lc aT rc) true t c = (some t, c)
  | .node a cl fs, c, hna, hnt => by
      have ha : ¬ a = aT := by
        intro h; exact hna (by simp [Obj.addrs, h])
      have hna' : aT ∉ Obj.addrsList fs := by
        intro h; exact hna (by simp [Obj.addrs, h])
      have hnt' : Obj.noTTList fs = true := by simpa [Obj.noTT] using hnt
      by_cases hcl : cl = lc
      · subst hcl
        simp [NT.visit, replaceHandler, ha, Option.isNone]
      · have hfs := untouched_fields lc aT rc fs c hna' hnt'
        simp [NT.visit, replaceHandler, hcl, hfs]
  | .tup a es, c, hna, hnt => by
      have hna' : aT ∉ Obj.addrsList es := by
        intro h; exact hna (by simp [Obj.addrs, h])
      have hnt' : Obj.noTTElems es = true := by simpa [Obj.noTT] using hnt
      have hes := untouched_elems lc aT rc es c hna' hnt'
      simp [NT.visit, hes]
  | .prim p, _, _, _ => rfl
theorem untouched_fields (lc : String) (aT : Nat) (rc : String) :
    ∀ (l : List Obj) (c : Nat), aT ∉ Obj.addrsList l → Obj.noTTList l = true →
      NT.visit_fields (replaceHandler lc aT rc) true l c = (l, false, c)
  | [], _, _, _ => rfl
  | f :: fs, c, hna, hnt => by
      have h1 : aT ∉ f.addrs := by
        intro h; exact hna (by simp [Obj.addrsList, List.mem_append]; exact .inl h)
      have h2 : aT ∉ Obj.addrsList fs := by
        intro h; exact hna (by simp [Obj.addrsList, List.mem_append]; exact .inr h)
      have hnt1 : Obj.noTT f = true := by
        simp only [Obj.noTTList, Bool.and_eq_true] at hnt; exact hnt.1
      have hnt2 : Obj.noTTList fs = true := by
        simp only [Obj.noTTList, Bool.and_eq_true] at hnt; exact hnt.2
      have hv := untouched_visit lc aT rc f c h1 hnt1
      have hrest := untouched_fields lc aT rc fs c h2 hnt2
      simp [NT.visit_fields, hv, hrest, resToObj]
theorem untouched_elems (lc : String) (aT : Nat) (rc : String) :
    ∀ (l : List Obj) (c : Nat), aT ∉ Obj.addrsList l → Obj.noTTElems l = true →
      NT.seq_items (replaceHandler lc aT rc) true l c = (l, false, c)
  | [], _, _, _ => rfl
  | it :: its, c, hna, hnt => by
      have h1 : aT ∉ it.addrs := by
        intro h; exact hna (by simp [Obj.addrsList, List.mem_append]; exact .inl h)
      have h2 : aT ∉ Obj.addrsList its := by
        intro h; exact hna (by simp [Obj.addrsList, List.mem_append]; exact .inr h)
      simp only [Obj.noTTElems, Bool.and_eq_true] at hnt
      obtain ⟨hit, hnt1, hnt2⟩ := hnt
      have hv := untouched_visit lc aT rc it c h1 hnt1
      have hrest := untouched_elems lc aT rc its c h2 hnt2
      cases it with
      | node a cl fs => simp [NT.seq_items, hv, hrest, resToObj]
      | tup a es => simp [Obj.isTup] at hit
      | prim p => simp [NT.seq_items, hv, hrest, resToObj]
end

/-- visit_fields on a field list whose only changed entry is ch (at
position l1.length, rewritten to r'): the change is detected and the
other fields keep their objects. -/
theorem spine_fields (lc : String) (aT : Nat) (rc : String) :
    ∀ (l1 : List Obj) (ch r' : Obj) (l2 : List Obj) (c c2 : Nat),
      NT.visit (replaceHandler lc aT rc) true ch c = (some r', c2) →
      r' ≠ ch →
      aT ∉ Obj.addrsList l1 → Obj.noTTList l1 = true →
      aT ∉ Obj.addrsList l2 → Obj.noTTList l2 = true →
      NT.visit_fields (replaceHandler lc aT rc) true (l1 ++ ch :: l2) c =
        (l1 ++ r' :: l2, true, c2) := by
  intro l1
  induction l1 with
  | nil =>
    intro ch r' l2 c c2 hvis hne _ _ hna2 hnt2
    have hrest := untouched_fields lc aT rc l2 c2 hna2 hnt2
    simp [NT.visit_fields, hvis, resToObj, hrest, hne]
  | cons f l1 ih =>
    intro ch r' l2 c c2 hvis hne hna1 hnt1 hna2 hnt2
    have h1 : aT ∉ f.addrs := by
      intro h; exact hna1 (by simp [Obj.addrsList, List.mem_append]; exact .inl h)
    have h2 : aT ∉ Obj.addrsList l1 := by
      intro h; exact hna1 (by simp [Obj.addrsList, List.mem_append]; exact .inr h)
    simp only [Obj.noTTList, Bool.and_eq_true] at hnt1
    have hv := untouched_visit lc aT rc f c h1 hnt1.1
    have hrest := ih ch r' l2 c c2 hvis hne h2 hnt1.2 hna2 hnt2
    simp [NT.visit_fields, hv, resToObj, hrest]

/-- seq_items on an element list whose only changed entry is ch (a
node, rewritten to the node r'): the change is detected, nothing is
spliced, and the other elements keep their objects. -/
theorem spine_elems (lc : String) (aT : Nat) (rc : String) :
    ∀ (l1 : List Obj) (ch r' : Obj) (l2 : List Obj) (c c2 : Nat),
      NT.visit (replaceHandler lc aT rc) true ch c = (some r', c2) →
      r' ≠ ch → Obj.isTup r' = false →
      aT ∉ Obj.addrsList l1 → Obj.noTTElems l1 = true →
      aT ∉ Obj.addrsList l2 → Obj.noTTElems l2 = true →
      NT.seq_items (replaceHandler lc aT rc) true (l1 ++ ch :: l2) c =
        (l1 ++ r' :: l2, true, c2) := by
  intro l1
  induction l1 with
  | nil =>
    intro ch r' l2 c c2 hvis hne hrt _ _ hna2 hnt2
    have hrest := untouched_elems lc aT rc l2 c2 hna2 hnt2
    cases r' with
    | node a cl fs => simp [NT.seq_items, hvis, resToObj, hrest, hne]
    | tup a es => simp [Obj.isTup] at hrt
    | prim p => simp [NT.seq_items, hvis, resToObj, hrest, hne]
  | cons f l1 ih =>
    intro ch r' l2 c c2 hvis hne hrt hna1 hnt1 hna2 hnt2
    have h1 : aT ∉ f.addrs := by
      intro h; exact hna1 (by simp [Obj.addrsList, List.mem_append]; exact .inl h)
    have h2 : aT ∉ Obj.addrsList l1 := by
      intro h; exact hna1 (by simp [Obj.addrsList, List.mem_append]; exact .inr h)
    simp only [Obj.noTTElems, Bool.and_eq_true] at hnt1
    obtain ⟨hft, hfn, hl1⟩ := hnt1
    have hv := untouched_visit lc aT rc f c h1 hfn
    have hrest := ih ch r' l2 c c2 hvis hne hrt h2 hl1 hna2 hnt2
    cases f with
    | node a cl fs => simp [NT.seq_items, hv, resToObj, hrest]
    | tup a es => simp [Obj.isTup] at hft
    | prim p => simp [NT.seq_items, hv, resToObj, hrest]

theorem noTTList_append : ∀ x y : List Obj,
    Obj.noTTList (x ++ y) = (Obj.noTTList x && Obj.noTTList y) := by
  intro x y
  induction x with
  | nil => simp [Obj.noTTList]
  | cons f fs ih => simp [Obj.noTTList, ih, Bool.and_assoc]

theorem noTTElems_append : ∀ x y : List Obj,
    Obj.noTTElems (x ++ y) = (Obj.noTTElems x && Obj.noTTElems y) := by
  intro x y
  induction x with
  | nil => simp [Obj.noTTElems]
  | cons f fs ih => simp [Obj.noTTElems, ih, Bool.and_assoc]

theorem noTTList_mem : ∀ {l : List Obj}, Obj.noTTList l = true →
    ∀ {f : Obj}, f ∈ l → Obj.noTT f = true := by
  intro l hl f hf
  induction l with
  | nil => cases hf
  | cons g gs ih =>
    simp only [Obj.noTTList, Bool.and_eq_true] at hl
    rcases List.mem_cons.mp hf with h | h
    · subst h; exact hl.1
    · exact ih hl.2 h

theorem getElem?_middle : ∀ (l1 : List Obj) (x : Obj) (l2 : List Obj),
    (l1 ++ x :: l2)[l1.length]? = some x := by
  intro l1 x l2
  rw [List.getElem?_append, if_neg (by omega)]
  simp

theorem getElem?_other : ∀ (l1 : List Obj) (x y : Obj) (l2 : List Obj) (j : Nat),
    j ≠ l1.length →
    (l1 ++ x :: l2)[j]? = (l1 ++ y :: l2)[j]? := by
  intro l1 x y l2 j hj
  rcases Nat.lt_or_ge j l1.length with h | h
  · rw [List.getElem?_append, if_pos h, List.getElem?_append, if_pos h]
  · have h' : l1.length < j := Nat.lt_of_le_of_ne h (fun hh => hj hh.symm)
    rw [List.getElem?_append, if_neg (by omega),
        List.getElem?_append, if_neg (by omega)]
    have hd : j - l1.length = (j - l1.length - 1) + 1 := by omega
    rw [hd]
    simp

/-- Core sharing lemma: visiting a well-formed tree with the one-leaf
replacing transformer succeeds, allocates only fresh addresses, and
every subtree whose path diverges from the target path is returned as
the identical object. -/
theorem spine_visit (lc rc : String) (aT c0 : Nat) :
    ∀ (p : List Nat) (t : Obj) (fsT : List Obj) (c : Nat),
      subtreeAt t p = some (.node aT lc fsT) →
      t.addrs.Nodup → (∀ x ∈ t.addrs, x < c0) → Obj.noTT t = true → c0 ≤ c →
      (∀ q a' c' fs', q <+: p → q ≠ p → subtreeAt t q = some (.node a' c' fs') →
        c' ≠ lc) →
      ∃ r' c2, NT.visit (replaceHandler lc aT rc) true t c = (some r', c2) ∧
        c ≤ c2 ∧ (∃ ar, rootAddr r' = some ar ∧ c ≤ ar) ∧
        Obj.isTup r' = Obj.isTup t ∧
        ∀ q, ¬ q <+: p → ¬ p <+: q → subtreeAt r' q = subtreeAt t q := by
  intro p
  induction p with
  | nil =>
    intro t fsT c hpath hnd hb hnt hc hsp
    simp only [subtreeAt, Option.some.injEq] at hpath
    subst hpath
    refine ⟨.node c rc [], c + 1, ?_, by omega, ⟨c, rfl, Nat.le_refl c⟩, rfl, ?_⟩
    · simp [NT.visit, replaceHandler]
    · intro q hq1 hq2
      exact absurd List.nil_prefix hq2
  | cons i ps ih =>
    intro t fsT c hpath hnd hb hnt hc hsp
    have haT_target : aT ∈ (Obj.node aT lc fsT).addrs := by simp [Obj.addrs]
    cases t with
    | prim pp => simp [subtreeAt, childAt] at hpath
    | node a cl fs =>
      simp only [subtreeAt, childAt] at hpath
      cases hch : fs[i]? with
      | none => rw [hch] at hpath; simp at hpath
      | some ch =>
        rw [hch] at hpath
        simp only at hpath
        have haTch : aT ∈ ch.addrs := subtreeAt_addrs ps hpath aT haT_target
        have hclne : cl ≠ lc := hsp [] a cl fs List.nil_prefix (by simp) rfl
        obtain ⟨hlen, hgi⟩ := List.getElem?_eq_some.mp hch
        obtain ⟨l1, l2, hsplit, hl1len⟩ :
            ∃ l1 l2, fs = l1 ++ ch :: l2 ∧ l1.length = i := by
          refine ⟨fs.take i, fs.drop (i + 1), ?_, ?_⟩
          · conv_lhs => rw [← List.take_append_drop i fs]
            rw [List.drop_eq_getElem_cons hlen, hgi]
          · simp [List.length_take]; omega
        have haddr : (Obj.node a cl fs).addrs =
            a :: (Obj.addrsList l1 ++ (ch.addrs ++ Obj.addrsList l2)) := by
          simp [Obj.addrs, hsplit, addrsList_append, Obj.addrsList]
        rw [haddr] at hnd hb
        have hndrest := (List.nodup_cons.mp hnd).2
        obtain ⟨hndL1, hndA2, hdisj1⟩ := List.nodup_append.mp hndrest
        obtain ⟨hndA, hndL2, hdisj2⟩ := List.nodup_append.mp hndA2
        have hnaL1 : aT ∉ Obj.addrsList l1 := fun h =>
          (hdisj1 h) (List.mem_append.mpr (.inl haTch))
        have hnaL2 : aT ∉ Obj.addrsList l2 := fun h => (hdisj2 haTch) h
        have hb_ch : ∀ x ∈ ch.addrs, x < c0 := fun x hx =>
          hb x (by simp [List.mem_append]; tauto)
        have hntfs : Obj.noTTList fs = true := by simpa [Obj.noTT] using hnt
        rw [hsplit] at hntfs
        simp only [noTTList_append, Obj.noTTList, Bool.and_eq_true] at hntfs
        obtain ⟨hntL1, hntch, hntL2⟩ := hntfs
        have hsp_ch : ∀ q a' c' fs', q <+: ps → q ≠ ps →
            subtreeAt ch q = some (.node a' c' fs') → c' ≠ lc := by
          intro q a' c' fs' hq hne hs
          refine hsp (i :: q) a' c' fs' (List.cons_prefix_cons.mpr ⟨rfl, hq⟩)
            (fun hh => hne (by injection hh)) ?_
          simp only [subtreeAt, childAt, hch]
          exact hs
        obtain ⟨r1, c2, hvis1, hc2, ⟨ar, har, hcar⟩, hitup1, hdiv1⟩ :=
          ih ch fsT c hpath hndA hb_ch hntch hc hsp_ch
        have hchroot : ∃ b, rootAddr ch = some b := by
          cases ps with
          | nil =>
            simp only [subtreeAt, Option.some.injEq] at hpath
            subst hpath
            exact ⟨aT, rfl⟩
          | cons j ps' =>
            simp only [subtreeAt] at hpath
            cases ch with
            | prim _ => simp [childAt] at hpath
            | node a' c' f' => exact ⟨a', rfl⟩
            | tup a' e' => exact ⟨a', rfl⟩
        obtain ⟨b, hbroot⟩ := hchroot
        have hblt : b < c0 := hb_ch b (rootAddr_mem hbroot)
        have hne1 : r1 ≠ ch := by
          intro h
          rw [h, hbroot] at har
          injection har with hh
          omega
        have hfields := spine_fields lc aT rc l1 ch r1 l2 c c2 hvis1 hne1
          hnaL1 hntL1 hnaL2 hntL2
        have hHcl : replaceHandler lc aT rc cl = none := by
          simp [replaceHandler, hclne]
        refine ⟨.node c2 cl (l1 ++ r1 :: l2), c2 + 1, ?_, by omega,
          ⟨c2, rfl, by omega⟩, rfl, ?_⟩
        · rw [hsplit]
          simp [NT.visit, hHcl, hfields]
        · intro q hq1 hq2
          cases q with
          | nil => exact absurd List.nil_prefix hq1
          | cons j q' =>
            by_cases hji : j = i
            · subst hji
              have hq1' : ¬ q' <+: ps := fun hh =>
                hq1 (List.cons_prefix_cons.mpr ⟨rfl, hh⟩)
              have hq2' : ¬ ps <+: q' := fun hh =>
                hq2 (List.cons_prefix_cons.mpr ⟨rfl, hh⟩)
              have hd := hdiv1 q' hq1' hq2'
              simp only [subtreeAt, childAt]
              rw [hsplit, ← hl1len, getElem?_middle, getElem?_middle]
              simpa using hd
            · simp only [subtreeAt, childAt]
              rw [hsplit, getElem?_other l1 r1 ch l2 j (by omega)]
    | tup a es =>
      simp only [subtreeAt, childAt] at hpath
      cases hch : es[i]? with
      | none => rw [hch] at hpath; simp at hpath
      | some ch =>
        rw [hch] at hpath
        simp only at hpath
        have haTch : aT ∈ ch.addrs := subtreeAt_addrs ps hpath aT haT_target
        obtain ⟨hlen, hgi⟩ := List.getElem?_eq_some.mp hch
        obtain ⟨l1, l2, hsplit, hl1len⟩ :
            ∃ l1 l2, es = l1 ++ ch :: l2 ∧ l1.length = i := by
          refine ⟨es.take i, es.drop (i + 1), ?_, ?_⟩
          · conv_lhs => rw [← List.take_append_drop i es]
            rw [List.drop_eq_getElem_cons hlen, hgi]
          · simp [List.length_take]; omega
        have haddr : (Obj.tup a es).addrs =
            a :: (Obj.addrsList l1 ++ (ch.addrs ++ Obj.addrsList l2)) := by
          simp [Obj.addrs, hsplit, addrsList_append, Obj.addrsList]
        rw [haddr] at hnd hb
        have hndrest := (List.nodup_cons.mp hnd).2
        obtain ⟨hndL1, hndA2, hdisj1⟩ := List.nodup_append.mp hndrest
        obtain ⟨hndA, hndL2, hdisj2⟩ := List.nodup_append.mp hndA2
        have hnaL1 : aT ∉ Obj.addrsList l1 := fun h =>
          (hdisj1 h) (List.mem_append.mpr (.inl haTch))
        have hnaL2 : aT ∉ Obj.addrsList l2 := fun h => (hdisj2 haTch) h
        have hb_ch : ∀ x ∈ ch.addrs, x < c0 := fun x hx =>
          hb x (by simp [List.mem_append]; tauto)
        have hntes : Obj.noTTElems es = true := by simpa [Obj.noTT] using hnt
        rw [hsplit] at hntes
        simp only [noTTElems_append, Obj.noTTElems, Bool.and_eq_true] at hntes
        obtain ⟨hntL1, hchtup, hntch, hntL2⟩ := hntes
        have hsp_ch : ∀ q a' c' fs', q <+: ps → q ≠ ps →
            subtreeAt ch q = some (.node a' c' fs') → c' ≠ lc := by
          intro q a' c' fs' hq hne hs
          refine hsp (i :: q) a' c' fs' (List.cons_prefix_cons.mpr ⟨rfl, hq⟩)
            (fun hh => hne (by injection hh)) ?_
          simp only [subtreeAt, childAt, hch]
          exact hs
        obtain ⟨r1, c2, hvis1, hc2, ⟨ar, har, hcar⟩, hitup1, hdiv1⟩ :=
          ih ch fsT c hpath hndA hb_ch hntch hc hsp_ch
        have hchroot : ∃ b, rootAddr ch = some b := by
          cases ps with
          | nil =>
            simp only [subtreeAt, Option.some.injEq] at hpath
            subst hpath
            exact ⟨aT, rfl⟩
          | cons j ps' =>
            simp only [subtreeAt] at hpath
            cases ch with
            | prim _ => simp [childAt] at hpath
            | node a' c' f' => exact ⟨a', rfl⟩
            | tup a' e' => exact ⟨a', rfl⟩
        obtain ⟨b, hbroot⟩ := hchroot
        have hblt : b < c0 := hb_ch b (rootAddr_mem hbroot)
        have hne1 : r1 ≠ ch := by
          intro h
          rw [h, hbroot] at har
          injection har with hh
          omega
        have hr1tup : Obj.isTup r1 = false := by
          rw [hitup1]
          simpa using hchtup
        have helems := spine_elems lc aT rc l1 ch r1 l2 c c2 hvis1 hne1 hr1tup
          hnaL1 hntL1 hnaL2 hntL2
        refine ⟨.tup c2 (l1 ++ r1 :: l2), c2 + 1, ?_, by omega,
          ⟨c2, rfl, by omega⟩, rfl, ?_⟩
        · rw [hsplit]
          simp [NT.visit, helems]
        · intro q hq1 hq2
          cases q with
          | nil => exact absurd List.nil_prefix hq1
          | cons j q' =>
            by_cases hji : j = i
            · subst hji
              have hq1' : ¬ q' <+: ps := fun hh =>
                hq1 (List.cons_prefix_cons.mpr ⟨rfl, hh⟩)
              have hq2' : ¬ ps <+: q' := fun hh =>
                hq2 (List.cons_prefix_cons.mpr ⟨rfl, hh⟩)
              have hd := hdiv1 q' hq1' hq2'
              simp only [subtreeAt, childAt]
              rw [hsplit, ← hl1len, getElem?_middle, getElem?_middle]
              simpa using hd
            · simp only [subtreeAt, childAt]
              rw [hsplit, getElem?_other l1 r1 ch l2 j (by omega)]

/-- C6: for a well-formed tree (distinct object addresses below the
allocation counter, no tuple directly inside a tuple) and a transformer
whose single handler replaces exactly the node at address aT on path p
(returning no-change everywhere else), every subtree whose path
diverges from p is reference-identical (the same labelled object) to
the corresponding subtree of the original; moreover generic_visit
rebuilds a node only when some field's result differs by reference
identity (otherwise the original node object is returned), and
seq_visit returns the original sequence object when no element
changed. -/
theorem NT_one_leaf_sharing (lc rc : String) (aT c0 : Nat) (t : Obj)
    (p : List Nat) (fsT : List Obj) (c : Nat)
    (hpath : subtreeAt t p = some (.node aT lc fsT))
    (hnd : t.addrs.Nodup) (hb : ∀ x ∈ t.addrs, x < c0)
    (hnt : Obj.noTT t = true) (hc : c0 ≤ c)
    (hsp : ∀ q a' c' fs', q <+: p → q ≠ p →
      subtreeAt t q = some (.node a' c' fs') → c' ≠ lc) :
    (∃ r' c2, NT.visit (replaceHandler lc aT rc) true t c = (some r', c2) ∧
      ∀ q, ¬ q <+: p → ¬ p <+: q → subtreeAt r' q = subtreeAt t q) ∧
    (∀ (H : Handlers) (a : Nat) (cl : String) (fs : List Obj) (cc : Nat),
      H cl = none → (NT.visit_fields H true fs cc).2.1 = false →
      NT.visit H true (.node a cl fs) cc =
        (some (.node a cl fs), (NT.visit_fields H true fs cc).2.2)) ∧
    (∀ (H : Handlers) (a : Nat) (es : List Obj) (cc : Nat),
      (NT.seq_items H true es cc).2.1 = false →
      NT.visit H true (.tup a es) cc =
        (some (.tup a es), (NT.seq_items H true es cc).2.2)) := by
  refine ⟨?_, ?_, ?_⟩
  · obtain ⟨r', c2, hvis, _, _, _, hdiv⟩ :=
      spine_visit lc rc aT c0 p t fsT c hpath hnd hb hnt hc hsp
    exact ⟨r', c2, hvis, hdiv⟩
  · intro H a cl fs cc hH hch
    simp [NT.visit, hH, hch]
  · intro H a es cc hch
    simp [NT.visit, hch]

/-- C6 witness: replacing the single Leaf node of a small concrete tree. -/
theorem NT_one_leaf_sharing_witness :
    (∃ r' c2,
      NT.visit (replaceHandler "Leaf" 2 "New") true
        (.node 1 "Root" [.node 2 "Leaf" [], .node 3 "Other" [.prim (.int 7)]])
        4 = (some r', c2) ∧
      ∀ q, ¬ q <+: [0] → ¬ [0] <+: q →
        subtreeAt r' q =
        subtreeAt
          (.node 1 "Root" [.node 2 "Leaf" [], .node 3 "Other" [.prim (.int 7)]])
          q) ∧
    (∀ (H : Handlers) (a : Nat) (cl : String) (fs : List Obj) (cc : Nat),
      H cl = none → (NT.visit_fields H true fs cc).2.1 = false →
      NT.visit H true (.node a cl fs) cc =
        (some (.node a cl fs), (NT.visit_fields H true fs cc).2.2)) ∧
    (∀ (H : Handlers) (a : Nat) (es : List Obj) (cc : Nat),
      (NT.seq_items H true es cc).2.1 = false →
      NT.visit H true (.tup a es) cc =
        (some (.tup a es), (NT.seq_items H true es cc).2.2)) :=
  NT_one_leaf_sharing "Leaf" "New" 2 4
    (.node 1 "Root" [.node 2 "Leaf" [], .node 3 "Other" [.prim (.int 7)]])
    [0] [] 4 rfl (by decide) (by decide) rfl (by omega)
    (by
      intro q a' c' fs' hq hne hs
      have hqnil : q = [] := by
        obtain ⟨r, hr⟩ := hq
        cases q with
        | nil => rfl
        | cons x xs =>
          simp only [List.cons_append, List.cons.injEq] at hr
          obtain ⟨hx, hxs⟩ := hr
          have : xs = [] ∧ r = [] := by
            constructor <;> cases xs <;> simp_all
          exact absurd (by simp [hx, this.1]) hne
      subst hqnil
      simp only [subtreeAt, Option.some.injEq] at hs
      have : c' = "Root" := by
        have := congrArg (fun o => match o with
          | Obj.node _ cl _ => cl
          | _ => "") hs
        simpa using this.symm
      simp [this])

/-! Embedding of node.py's typed node construction: TypedASTField's
checktype and checktype_seq, and instance construction. The underlying
TypedField of the external simplestruct library is modelled from its
documented behaviour: on construction each field's value is checked in
declaration order (checktype for single and optional fields with None
admitted when the quantifier is optional, checktype_seq for sequence
fields, which requires a tuple and checks each element); a failed
check raises immediately. The class hierarchy is modelled by a table
from class name to its superclass chain, its _meta class attribute and
its typed field specifications. -/

/-- Primitive target types of ASDL fields. -/
inductive PrimTy where
  | intT
  | strT
  | boolT
  deriving DecidableEq, Repr

/-- Target of a typed field: a node type name or a primitive type. -/
inductive Kind where
  | nodeT (name : String)
  | primT (pt : PrimTy)
  deriving DecidableEq, Repr

/-- ASDL arity quantifiers: '' (single), '?' (optional), '*' (sequence). -/
inductive Quant where
  | one
  | opt
  | seq
  deriving DecidableEq, Repr

/-- Field specification: name, target kind, quantifier. -/
abbrev FieldSpec := String × Kind × Quant

/-- Per-class information: superclass chain (excluding the class
itself), the _meta class attribute, and the typed field specs. -/
structure ClsInfo where
  mro : List String
  meta : Bool
  fields : List FieldSpec

/-- Class table of a generated node-type family. -/
abbrev Lang := String → Option ClsInfo

/-- Runtime values for construction: node instances, sequences and
primitives. -/
inductive Val where
  | node (cls : String) (fields : List Val)
  | seqv (elts : List Val)
  | primv (p : Prim)

mutual
def valEq : Val → Val → Bool
  | .node c1 f1, .node c2 f2 => c1 = c2 && valListEq f1 f2
  | .seqv e1, .seqv e2 => valListEq e1 e2
  | .primv a, .primv b => a = b
  | _, _ => false
def valListEq : List Val → List Val → Bool
  | [], [] => true
  | a :: as_, b :: bs => valEq a b && valListEq as_ bs
  | _, _ => false
end

mutual
theorem valEq_iff : ∀ a b : Val, valEq a b = true ↔ a = b
  | .node _ f1, .node _ f2 => by
      simp [valEq, valListEq_iff f1 f2, decide_eq_true_iff]
  | .node _ _, .seqv _ => by simp [valEq]
  | .node _ _, .primv _ => by simp [valEq]
  | .seqv e1, .node _ _ => by simp [valEq]
  | .seqv e1, .seqv e2 => by simp [valEq, valListEq_iff e1 e2]
  | .seqv _, .primv _ => by simp [valEq]
  | .primv _, .node _ _ => by simp [valEq]
  | .primv _, .seqv _ => by simp [valEq]
  | .primv _, .primv _ => by simp [valEq]
theorem valListEq_iff : ∀ a b : List Val, valListEq a b = true ↔ a = b
  | [], [] => by simp [valListEq]
  | a :: as_, b :: bs => by
      simp [valListEq, valEq_iff a b, valListEq_iff as_ bs]
  | [], _ :: _ => by simp [valListEq]
  | _ :: _, [] => by simp [valListEq]
end

instance : DecidableEq Val := fun a b => decidable_of_iff _ (valEq_iff a b)

/-- Python isinstance against a field target: a node instance matches
a node-type target when the target is its class or on its superclass
chain; a primitive matches its primitive type; a sequence matches
neither. -/
def isinstance (L : Lang) (v : Val) (k : Kind) : Bool :=
  match v, k with
  | .node c _, .nodeT target =>
    (c = target) ||
      (match L c with
       | some info => target ∈ info.mro
       | none => false)
  | .primv (.int _), .primT .intT => true
  | .primv (.str _), .primT .strT => true
  | .primv (.boolv _), .primT .boolT => true
  | _, _ => false

/-- Python `isinstance(value, AST) and value._meta`: a node instance
whose class has the _meta attribute set. -/
def isMetaNode (L : Lang) (v : Val) : Bool :=
  match v with
  | .node c _ =>
    (match L c with
     | some info => info.meta
     | none => false)
  | _ => false

/-- Readable name of a kind, for error messages (str_kind). -/
def kindStr : Kind → String
  | .nodeT n => n
  | .primT .intT => "int"
  | .primT .strT => "str"
  | .primT .boolT => "bool"

/-- TypedASTField.checktype (node.py): waive the check when the value
is a metasyntactic AST node, otherwise require an instance of the
target kind. -/
def checktype (L : Lang) (kind : Kind) (v : Val) : Except String Unit :=
  if isMetaNode L v then .ok ()
  else if isinstance L v kind then .ok ()
  else .error ("Expected " ++ kindStr kind)

/-- Element loop of the underlying checktype_seq: each element is
checked with checktype (so the metasyntactic waiver applies at
sequence-element level too). -/
def checkElems (L : Lang) (kind : Kind) : List Val → Except String Unit
  | [] => .ok ()
  | e :: es =>
    match checktype L kind e with
    | .ok _ => checkElems L kind es
    | .error msg => .error msg

/-- TypedASTField.checktype_seq (node.py): waive the check for a
metasyntactic node; explicitly reject a singular AST node where a
sequence is required, so it cannot be coerced to the sequence of its
fields; otherwise require a sequence and check every element. -/
def checktype_seq (L : Lang) (kind : Kind) (v : Val) : Except String Unit :=
  if isMetaNode L v then .ok ()
  else
    match v with
    | .node c _ =>
      .error ("Expected sequence of " ++ kindStr kind ++ "; got " ++ c ++
        " node instead")
    | .seqv es => checkElems L kind es
    | .primv _ => .error "Expected a sequence"

/-- Check of one constructor argument against its field spec: sequence
fields go through checktype_seq, optional fields admit None, single
fields go through checktype. -/
def fieldCheck (L : Lang) (k : Kind) (q : Quant) (v : Val) : Except String Unit :=
  match q with
  | .seq => checktype_seq L k v
  | .opt => if v = .primv .noneV then .ok () else checktype L k v
  | .one => checktype L k v

/-- Check all constructor arguments in field declaration order,
stopping at the first failure. -/
def checkFields (L : Lang) : List FieldSpec → List Val → Except String Unit
  | [], [] => .ok ()
  | (_, k, q) :: rest, v :: vs =>
    match fieldCheck L k q v with
    | .ok _ => checkFields L rest vs
    | .error msg => .error msg
  | _, _ => .error "wrong number of arguments"

/-- Instance construction of a typed node class: the argument count
must match the declared fields and every field check must pass; errors
are raised immediately at the constructor call. -/
def construct (L : Lang) (cls : String) (args : List Val) : Except String Val :=
  match L cls with
  | none => .error "unknown class"
  | some info =>
    if args.length = info.fields.length then
      match checkFields L info.fields args with
      | .ok _ => .ok (.node cls args)
      | .error msg => .error msg
    else .error "wrong number of arguments"

theorem checkFields_append (L : Lang) : ∀ (pre : List FieldSpec) (args1 : List Val),
    args1.length = pre.length → checkFields L pre args1 = .ok () →
    ∀ (rest : List FieldSpec) (vs : List Val),
      checkFields L (pre ++ rest) (args1 ++ vs) = checkFields L rest vs := by
  intro pre
  induction pre with
  | nil =>
    intro args1 hl hok rest vs
    cases args1 with
    | nil => simp
    | cons v args1 => simp at hl
  | cons f pre ih =>
    intro args1 hl hok rest vs
    cases args1 with
    | nil => simp at hl
    | cons v args1 =>
      obtain ⟨fn, k, q⟩ := f
      simp only [checkFields, List.cons_append] at hok ⊢
      cases hfc : fieldCheck L k q v with
      | ok u =>
        rw [hfc] at hok
        simp only at hok
        exact ih args1 (by simpa using hl) hok rest vs
      | error e => rw [hfc] at hok; simp at hok

/-- C8: for a type-checked node type with a sequence ('*') field,
passing a single non-metasyntactic node instance where the sequence is
required is rejected immediately at the constructor call with the
explicit Expected-sequence error (checktype_seq's guard), never
silently coerced into a sequence. -/
theorem construct_seq_rejects_single_node (L : Lang) (cls : String)
    (info : ClsInfo) (hL : L cls = some info)
    (pre post : List FieldSpec) (fname : String) (k : Kind)
    (hfs : info.fields = pre ++ (fname, k, .seq) :: post)
    (args1 args2 : List Val) (cnode : String) (fsv : List Val)
    (hl1 : args1.length = pre.length) (hl2 : args2.length = post.length)
    (hpre : checkFields L pre args1 = .ok ())
    (hmeta : isMetaNode L (.node cnode fsv) = false) :
    construct L cls (args1 ++ .node cnode fsv :: args2) =
      .error ("Expected sequence of " ++ kindStr k ++ "; got " ++ cnode ++
        " node instead") := by
  simp only [construct, hL, hfs]
  rw [if_pos (by simp [hl1, hl2])]
  rw [checkFields_append L pre args1 hl1 hpre]
  simp [checkFields, fieldCheck, checktype_seq, hmeta]

/-- Concrete generated language for the C8 witness: an abstract expr
type, a Num variant with an int field, and a Tup variant with an
expr-sequence field. -/
def lang8 : Lang := fun c =>
  if c = "expr" then some ⟨["AST"], false, []⟩
  else if c = "Num" then some ⟨["expr", "AST"], false, [("n", .primT .intT, .one)]⟩
  else if c = "Tup" then
    some ⟨["expr", "AST"], false, [("elts", .nodeT "expr", .seq)]⟩
  else none

/-- C8 witness: Tup(Num(1)) raises the Expected-sequence error. -/
theorem construct_seq_rejects_single_node_witness :
    construct lang8 "Tup" [.node "Num" [.primv (.int 1)]] =
      .error "Expected sequence of expr; got Num node instead" :=
  construct_seq_rejects_single_node lang8 "Tup"
    ⟨["expr", "AST"], false, [("elts", .nodeT "expr", .seq)]⟩ rfl
    [] [] "elts" (.nodeT "expr") rfl [] [] "Num" [.primv (.int 1)]
    rfl rfl rfl rfl

/-- Language as declared by pattern.py in this revision: class pattern
extends AST without overriding _meta, so pattern and PatVar inherit
_meta = False; MetaNode stands for a class that does set _meta. -/
def lang2 : Lang := fun c =>
  if c = "pattern" then some ⟨["AST"], false, []⟩
  else if c = "PatVar" then
    some ⟨["pattern", "AST"], false, [("id", .primT .strT, .one)]⟩
  else if c = "expr" then some ⟨["AST"], false, []⟩
  else if c = "Num" then some ⟨["expr", "AST"], false, [("n", .primT .intT, .one)]⟩
  else if c = "Add" then
    some ⟨["expr", "AST"], false,
      [("left", .nodeT "expr", .one), ("right", .nodeT "expr", .one)]⟩
  else if c = "MetaNode" then some ⟨["AST"], true, []⟩
  else none

/-- C2 evaluation at the failing input: in this revision pattern does
not set _meta = True, so a PatVar is not metasyntactic and constructing
a type-checked node with a PatVar as a field value raises a type error
instead of bypassing the check; the bypass itself works exactly for
values whose class does set _meta, at top level and for sequence
elements. -/
theorem pattern_terms_not_metasyntactic :
    isMetaNode lang2 (.node "PatVar" [.primv (.str "_X")]) = false ∧
    construct lang2 "Add"
      [.node "PatVar" [.primv (.str "_X")], .node "Num" [.primv (.int 1)]] =
      .error "Expected expr" ∧
    checktype lang2 (.nodeT "expr") (.node "MetaNode" []) = .ok () ∧
    checktype_seq lang2 (.nodeT "expr") (.node "MetaNode" []) = .ok () ∧
    checktype_seq lang2 (.nodeT "expr")
      (.seqv [.node "MetaNode" [], .node "Num" [.primv (.int 1)]]) = .ok () :=
  ⟨rfl, rfl, rfl, rfl, rfl⟩

/-! Embedding of dump (node.py) and of re-evaluating its output.

dump is translated from the source: nodes print as
ClsName(field = value, ...), with a delimiter of a comma, newline and
column-aligning spaces; tuples print parenthesized with a trailing
comma for singletons; other values print as their repr. The evaluator
that reads the text back is not part of the source (the docstring says
the returned string can be executed to reproduce the tree); it is
modelled from the spec: a reader of the dumped expression syntax that
looks classes up by name, binds field names in declaration order, and
reads Python literals (ints, plain single-quoted strings, True, False,
None, tuples). -/

/-- Whitespace the dump emits between tokens. -/
def isWsChar (c : Char) : Bool := c = ' ' || c = '\n'

/-- Decimal digit character test. -/
def isDigitC (c : Char) : Bool := 48 ≤ c.toNat && c.toNat ≤ 57

/-- ASCII letter test. -/
def isAlphaC (c : Char) : Bool :=
  (65 ≤ c.toNat && c.toNat ≤ 90) || (97 ≤ c.toNat && c.toNat ≤ 122)

/-- Identifier characters of class and field names. -/
def isIdentChar (c : Char) : Bool := isAlphaC c || isDigitC c || c = '_'

/-- Decimal digit character for d in 0..9. -/
def digitChar : Nat → Char
  | 0 => '0' | 1 => '1' | 2 => '2' | 3 => '3' | 4 => '4'
  | 5 => '5' | 6 => '6' | 7 => '7' | 8 => '8' | _ => '9'

/-- Decimal digits of n, most significant first, prepended to acc; the
fuel bounds the digit count (n + 1 always suffices). -/
def natChars : Nat → Nat → List Char → List Char
  | 0, _, acc => acc
  | fuel + 1, n, acc =>
    if n < 10 then digitChar n :: acc
    else natChars fuel (n / 10) (digitChar (n % 10) :: acc)

/-- repr of a nonnegative integer. -/
def natRepr (n : Nat) : List Char := natChars (n + 1) n []

/-- repr of a Python int. -/
def intRepr : Int → List Char
  | .ofNat n => natRepr n
  | .negSucc m => '-' :: natRepr (m + 1)

/-- repr of a primitive value: ints in decimal, strings single-quoted
(the escape-free case), True, False, None. -/
def primRepr : Prim → List Char
  | .int i => intRepr i
  | .str s => '\'' :: s.data ++ ['\'']
  | .boolv true => "True".data
  | .boolv false => "False".data
  | .noneV => "None".data

/-- Spaces used for column alignment. -/
def spacesC (n : Nat) : List Char := List.replicate n ' '

mutual
/-- dump (node.py): nodes as ClsName(field = value, ...), field names
taken from the class's _fields (the table F); a PatVar node has the
single field id. Tuples parenthesized, singleton with trailing comma;
primitives as their repr. The indent argument is the column where the
printed value starts. -/
def dumpT (F : String → List String) : Tree → Nat → List Char
  | .patvar id, _ => "PatVar(id = ".data ++ primRepr (.str id) ++ [')']
  | .node cls fs, ind =>
    cls.data ++ '(' ::
      dumpItems F (F cls) fs (ind + cls.length + 1) true ++ [')']
  | .tup es, ind =>
    '(' :: dumpElems F es (ind + 1) true ++
      (if es.length = 1 then [','] else []) ++ [')']
  | .prim p, _ => primRepr p
def dumpItems (F : String → List String) :
    List String → List Tree → Nat → Bool → List Char
  | _, [], _, _ => []
  | [], _ :: _, _, _ => []
  | key :: ns, v :: vs, newInd, first =>
    (if first then [] else ',' :: '\n' :: spacesC newInd) ++
      key.data ++ " = ".data ++ dumpT F v (key.length + 3 + newInd) ++
      dumpItems F ns vs newInd false
def dumpElems (F : String → List String) :
    List Tree → Nat → Bool → List Char
  | [], _, _ => []
  | v :: vs, newInd, first =>
    (if first then [] else ',' :: '\n' :: spacesC newInd) ++
      dumpT F v newInd ++ dumpElems F vs newInd false
end

/-- dump as a string, at indent 0. -/
def dump (F : String → List String) (t : Tree) : String :=
  String.mk (dumpT F t 0)

/-- Skip whitespace between tokens. -/
def skipWs : List Char → List Char
  | [] => []
  | c :: cs => if isWsChar c then skipWs cs else c :: cs

/-- Longest identifier prefix and the remainder. -/
def takeIdent : List Char → List Char × List Char
  | [] => ([], [])
  | c :: cs =>
    if isIdentChar c then
      let p := takeIdent cs
      (c :: p.1, p.2)
    else ([], c :: cs)

/-- Longest digit prefix and the remainder. -/
def takeDigits : List Char → List Char × List Char
  | [] => ([], [])
  | c :: cs =>
    if isDigitC c then
      let p := takeDigits cs
      (c :: p.1, p.2)
    else ([], c :: cs)

/-- Value of a digit character. -/
def digitVal (c : Char) : Nat := c.toNat - 48

/-- Accumulating decimal value of a digit list. -/
def digitsToNat (acc : Nat) : List Char → Nat
  | [] => acc
  | d :: ds => digitsToNat (acc * 10 + digitVal d) ds

/-- Read a single-quoted string body up to the closing quote. -/
def takeStr : List Char → Option (List Char × List Char)
  | [] => none
  | c :: cs =>
    if c = '\'' then some ([], cs)
    else
      match takeStr cs with
      | some (body, rest) => some (c :: body, rest)
      | none => none

mutual
/-- Modelled from the spec: re-evaluating a dumped expression. Reads a
value: a parenthesized tuple, a string literal, an int literal, one of
the constants True, False, None, or a node constructor call
ClsName(field = value, ...) whose keyword names must be the class's
declared fields; a PatVar(id = <string>) call builds a PatVar. The
fuel bounds the recursion depth. -/
def parseVal (F : String → List String) : Nat → List Char → Option (Tree × List Char)
  | 0, _ => none
  | fuel + 1, s =>
    match skipWs s with
    | [] => none
    | c :: cs =>
      if c = '(' then
        match parseTupItems F fuel cs with
        | some (items, rest) => some (.tup items, rest)
        | none => none
      else if c = '\'' then
        match takeStr cs with
        | some (body, rest) => some (.prim (.str (String.mk body)), rest)
        | none => none
      else if c = '-' then
        match takeDigits cs with
        | ([], _) => none
        | (ds, rest) => some (.prim (.int (.negOfNat (digitsToNat 0 ds))), rest)
      else if isDigitC c then
        match takeDigits (c :: cs) with
        | ([], _) => none
        | (ds, rest) => some (.prim (.int (.ofNat (digitsToNat 0 ds))), rest)
      else if isAlphaC c || c = '_' then
        let p := takeIdent (c :: cs)
        let idt := String.mk p.1
        if idt = "True" then some (.prim (.boolv true), p.2)
        else if idt = "False" then some (.prim (.boolv false), p.2)
        else if idt = "None" then some (.prim .noneV, p.2)
        else
          match skipWs p.2 with
          | [] => none
          | c2 :: r1 =>
            if c2 = '(' then
              match parseFields F fuel r1 with
              | some (pairs, rest) =>
                if pairs.map Prod.fst = F idt then
                  if idt = "PatVar" then
                    match pairs with
                    | [(_, .prim (.str x))] => some (.patvar x, rest)
                    | _ => none
                  else some (.node idt (pairs.map Prod.snd), rest)
                else none
              | none => none
            else none
      else none
def parseFields (F : String → List String) :
    Nat → List Char → Option (List (String × Tree) × List Char)
  | 0, _ => none
  | fuel + 1, s =>
    match skipWs s with
    | [] => none
    | c :: cs =>
      if c = ')' then some ([], cs)
      else
        match takeIdent (c :: cs) with
        | ([], _) => none
        | (key, r1) =>
          match skipWs r1 with
          | [] => none
          | c2 :: r2 =>
            if c2 = '=' then
              match parseVal F fuel r2 with
              | some (v, r3) =>
                match skipWs r3 with
                | [] => none
                | c3 :: r4 =>
                  if c3 = ',' then
                    match parseFields F fuel r4 with
                    | some (pairs, rest) =>
                      some ((String.mk key, v) :: pairs, rest)
                    | none => none
                  else if c3 = ')' then some ([(String.mk key, v)], r4)
                  else none
              | none => none
            else none
def parseTupItems (F : String → List String) :
    Nat → List Char → Option (List Tree × List Char)
  | 0, _ => none
  | fuel + 1, s =>
    match skipWs s with
    | [] => none
    | c :: cs =>
      if c = ')' then some ([], cs)
      else
        match parseVal F fuel (c :: cs) with
        | some (v, r1) =>
          match skipWs r1 with
          | [] => none
          | c2 :: r2 =>
            if c2 = ',' then
              match parseTupItems F fuel r2 with
              | some (items, rest) => some (v :: items, rest)
              | none => none
            else if c2 = ')' then some ([v], r2)
            else none
        | none => none
end

mutual
/-- Recursion-depth measure used as parser fuel. -/
def sizeT : Tree → Nat
  | .patvar _ => 4
  | .node _ fs => 1 + sizeL fs
  | .tup es => 1 + sizeL es
  | .prim _ => 1
def sizeL : List Tree → Nat
  | [] => 1
  | t :: ts => 1 + sizeT t + sizeL ts
end

/-- Identifier well-formedness of class and field names. -/
def identOK (s : String) : Bool :=
  match s.data with
  | [] => false
  | c :: _ => (isAlphaC c || c = '_') && s.data.all isIdentChar

/-- Escape-free printable string contents, whose repr is the value
between plain single quotes. -/
def strLitOK (s : String) : Bool :=
  s.data.all (fun c =>
    !(c = '\'') && !(c = '\\') && (32 ≤ c.toNat && c.toNat ≤ 126))

mutual
/-- Trees whose dump re-evaluates: every primitive is reconstructible
from its repr, class names are identifiers distinct from the literal
keywords and from PatVar, field name lists are identifiers matching
the field count, and pattern variable names are plain strings. -/
def wfB (F : String → List String) : Tree → Bool
  | .patvar id => strLitOK id
  | .node cls fs =>
    identOK cls && !(cls = "True") && !(cls = "False") && !(cls = "None") &&
      !(cls = "PatVar") && ((F cls).length = fs.length) &&
      (F cls).all identOK && wfList F fs
  | .tup es => wfList F es
  | .prim (.str s) => strLitOK s
  | .prim _ => true
def wfList (F : String → List String) : List Tree → Bool
  | [] => true
  | t :: ts => wfB F t && wfList F ts
end

/-- Suffixes a dumped value can be followed by inside a larger dump. -/
def RestOK (r : List Char) : Prop :=
  r = [] ∨ (∃ r', r = ',' :: r') ∨ (∃ r', r = ')' :: r')

theorem skipWs_cons_not {c : Char} (h : isWsChar c = false) (s : List Char) :
    skipWs (c :: s) = c :: s := by simp [skipWs, h]

theorem skipWs_space (s : List Char) : skipWs (' ' :: s) = skipWs s := by
  simp [skipWs, isWsChar]

theorem skipWs_nl (s : List Char) : skipWs ('\n' :: s) = skipWs s := by
  simp [skipWs, isWsChar]

theorem skipWs_spaces (n : Nat) (s : List Char) :
    skipWs (spacesC n ++ s) = skipWs s := by
  induction n with
  | zero => simp [spacesC]
  | succ m ih =>
    simp only [spacesC, List.replicate_succ, List.cons_append]
    rw [skipWs_space]
    simpa [spacesC] using ih

theorem skipWs_delim (n : Nat) (s : List Char) :
    skipWs (('\n' :: spacesC n) ++ s) = skipWs s := by
  simp only [List.cons_append, skipWs_nl]
  exact skipWs_spaces n s

theorem takeIdent_spec : ∀ (ds rest : List Char), ds.all isIdentChar = true →
    (rest = [] ∨ ∃ c r', rest = c :: r' ∧ isIdentChar c = false) →
    takeIdent (ds ++ rest) = (ds, rest) := by
  intro ds
  induction ds with
  | nil =>
    intro rest _ hr
    rcases hr with rfl | ⟨c, r', rfl, hc⟩
    · rfl
    · simp [takeIdent, hc]
  | cons d ds ih =>
    intro rest hall hr
    simp only [List.all_cons, Bool.and_eq_true] at hall
    simp [takeIdent, hall.1, ih rest hall.2 hr]

theorem takeDigits_spec : ∀ (ds rest : List Char), ds.all isDigitC = true →
    (rest = [] ∨ ∃ c r', rest = c :: r' ∧ isDigitC c = false) →
    takeDigits (ds ++ rest) = (ds, rest) := by
  intro ds
  induction ds with
  | nil =>
    intro rest _ hr
    rcases hr with rfl | ⟨c, r', rfl, hc⟩
    · rfl
    · simp [takeDigits, hc]
  | cons d ds ih =>
    intro rest hall hr
    simp only [List.all_cons, Bool.and_eq_true] at hall
    simp [takeDigits, hall.1, ih rest hall.2 hr]

theorem takeStr_spec : ∀ (body rest : List Char),
    body.all (fun c => !(c = '\'')) = true →
    takeStr (body ++ '\'' :: rest) = some (body, rest) := by
  intro body
  induction body with
  | nil => intro rest _; simp [takeStr]
  | cons c cs ih =>
    intro rest hall
    simp only [List.all_cons, Bool.and_eq_true, Bool.not_eq_true'] at hall
    have hc : ¬ c = '\'' := by simpa using hall.1
    simp [takeStr, hc, ih rest hall.2]

theorem digitChar_isDigit {d : Nat} (h : d < 10) :
    isDigitC (digitChar d) = true := by
  interval_cases d <;> decide

theorem digitVal_digitChar {d : Nat} (h : d < 10) : digitVal (digitChar d) = d := by
  interval_cases d <;> decide

theorem digitsToNat_cons (a : Nat) (d : Char) (ds : List Char) :
    digitsToNat a (d :: ds) = digitsToNat (a * 10 + digitVal d) ds := rfl

theorem natChars_shape : ∀ (f n : Nat) (acc : List Char), n < 10 ^ (f + 1) →
    ∃ ds, natChars (f + 1) n acc = ds ++ acc ∧ ds ≠ [] ∧
      ds.all isDigitC = true := by
  intro f
  induction f with
  | zero =>
    intro n acc h
    have hn : n < 10 := by simpa using h
    exact ⟨[digitChar n], by simp [natChars, hn], by simp,
      by simp [digitChar_isDigit hn]⟩
  | succ m ih =>
    intro n acc h
    by_cases hn : n < 10
    · exact ⟨[digitChar n], by simp [natChars, hn], by simp,
        by simp [digitChar_isDigit hn]⟩
    · have h10 : n / 10 < 10 ^ (m + 1) := by
        rw [Nat.div_lt_iff_lt_mul (by omega)]
        calc n < 10 ^ (m + 1 + 1) := h
        _ = 10 ^ (m + 1) * 10 := by rw [Nat.pow_succ]
      obtain ⟨ds, heq, hne, hdig⟩ := ih (n / 10) (digitChar (n % 10) :: acc) h10
      refine ⟨ds ++ [digitChar (n % 10)], ?_, by simp [hne], ?_⟩
      · have hstep : natChars (m + 1 + 1) n acc =
            natChars (m + 1) (n / 10) (digitChar (n % 10) :: acc) := by
          simp [natChars, hn]
        rw [hstep, heq]
        simp
      · simp only [List.all_append, Bool.and_eq_true]
        exact ⟨hdig, by simp [digitChar_isDigit (Nat.mod_lt n (by omega))]⟩

theorem natChars_val : ∀ (f n : Nat), n < 10 ^ (f + 1) →
    ∃ S, ∀ (acc : List Char) (a : Nat),
      digitsToNat a (natChars (f + 1) n acc) = digitsToNat (a * S + n) acc := by
  intro f
  induction f with
  | zero =>
    intro n h
    have hn : n < 10 := by simpa using h
    refine ⟨10, fun acc a => ?_⟩
    have h1 : natChars (0 + 1) n acc = digitChar n :: acc := by
      simp [natChars, hn]
    rw [h1, digitsToNat_cons, digitVal_digitChar hn]
  | succ m ih =>
    intro n h
    by_cases hn : n < 10
    · refine ⟨10, fun acc a => ?_⟩
      have h1 : natChars (m + 1 + 1) n acc = digitChar n :: acc := by
        simp [natChars, hn]
      rw [h1, digitsToNat_cons, digitVal_digitChar hn]
    · have h10 : n / 10 < 10 ^ (m + 1) := by
        rw [Nat.div_lt_iff_lt_mul (by omega)]
        calc n < 10 ^ (m + 1 + 1) := h
        _ = 10 ^ (m + 1) * 10 := by rw [Nat.pow_succ]
      obtain ⟨S, hS⟩ := ih (n / 10) h10
      refine ⟨S * 10, fun acc a => ?_⟩
      have hstep : natChars (m + 1 + 1) n acc =
          natChars (m + 1) (n / 10) (digitChar (n % 10) :: acc) := by
        simp [natChars, hn]
      rw [hstep, hS (digitChar (n % 10) :: acc) a, digitsToNat_cons,
        digitVal_digitChar (Nat.mod_lt n (by omega))]
      have hmod : n / 10 * 10 + n % 10 = n := by omega
      have harith : (a * S + n / 10) * 10 + n % 10 =
          a * (S * 10) + (n / 10 * 10 + n % 10) := by ring
      rw [harith, hmod]

theorem natRepr_val (n : Nat) : digitsToNat 0 (natRepr n) = n := by
  have hlt : n < 10 ^ (n + 1) :=
    lt_of_lt_of_le (Nat.lt_pow_self (by omega) n)
      (Nat.pow_le_pow_right (by omega) (by omega))
  obtain ⟨S, hS⟩ := natChars_val n n hlt
  have h1 := hS [] 0
  rw [show natRepr n = natChars (n + 1) n [] from rfl, h1,
    show digitsToNat (0 * S + n) [] = 0 * S + n from rfl]
  omega

theorem natRepr_shape (n : Nat) :
    natRepr n ≠ [] ∧ (natRepr n).all isDigitC = true := by
  have hlt : n < 10 ^ (n + 1) :=
    lt_of_lt_of_le (Nat.lt_pow_self (by omega) n)
      (Nat.pow_le_pow_right (by omega) (by omega))
  obtain ⟨ds, heq, hne, hdig⟩ := natChars_shape n n [] hlt
  rw [show natRepr n = natChars (n + 1) n [] from rfl, heq]
  refine ⟨by simpa using hne, ?_⟩
  simpa using hdig

theorem digit_head_facts {c : Char} (h : isDigitC c = true) :
    isWsChar c = false ∧ ¬ c = '(' ∧ ¬ c = '\'' ∧ ¬ c = '-' ∧ ¬ c = ')' := by
  refine ⟨?_, ?_, ?_, ?_, ?_⟩
  · simp only [isWsChar, Bool.or_eq_false_iff, decide_eq_false_iff_not]
    constructor <;> (intro hc; subst hc; exact absurd h (by decide))
  all_goals (intro hc; subst hc; exact absurd h (by decide))

theorem identHead_facts {c : Char} (h : (isAlphaC c || c = '_') = true) :
    isWsChar c = false ∧ ¬ c = '(' ∧ ¬ c = '\'' ∧ ¬ c = '-' ∧
      isDigitC c = false ∧ ¬ c = ')' := by
  refine ⟨?_, ?_, ?_, ?_, ?_, ?_⟩
  · simp only [isWsChar, Bool.or_eq_false_iff, decide_eq_false_iff_not]
    constructor <;> (intro hc; subst hc; exact absurd h (by decide))
  · intro hc; subst hc; exact absurd h (by decide)
  · intro hc; subst hc; exact absurd h (by decide)
  · intro hc; subst hc; exact absurd h (by decide)
  · simp only [Bool.or_eq_true, decide_eq_true_eq] at h
    rcases h with h | h
    · simp only [isAlphaC, Bool.or_eq_true, Bool.and_eq_true,
        decide_eq_true_eq] at h
      simp only [isDigitC, Bool.and_eq_false_iff, decide_eq_false_iff_not]
      omega
    · subst h; decide
  · intro hc; subst hc; exact absurd h (by decide)

theorem identChar_of_head {c : Char} (h : (isAlphaC c || c = '_') = true) :
    isIdentChar c = true := by
  simp only [Bool.or_eq_true, decide_eq_true_eq] at h
  rcases h with h | h
  · simp [isIdentChar, h]
  · subst h; decide

theorem restOK_digits {r : List Char} (h : RestOK r) :
    r = [] ∨ ∃ c r', r = c :: r' ∧ isDigitC c = false := by
  rcases h with rfl | ⟨r', rfl⟩ | ⟨r', rfl⟩
  · exact Or.inl rfl
  · exact Or.inr ⟨',', r', rfl, by decide⟩
  · exact Or.inr ⟨')', r', rfl, by decide⟩

theorem restOK_ident {r : List Char} (h : RestOK r) :
    r = [] ∨ ∃ c r', r = c :: r' ∧ isIdentChar c = false := by
  rcases h with rfl | ⟨r', rfl⟩ | ⟨r', rfl⟩
  · exact Or.inl rfl
  · exact Or.inr ⟨',', r', rfl, by decide⟩
  · exact Or.inr ⟨')', r', rfl, by decide⟩

theorem stringMk_data (s : String) : String.mk s.data = s := rfl

theorem skipWs_idem (s : List Char) : skipWs (skipWs s) = skipWs s := by
  induction s with
  | nil => rfl
  | cons c cs ih =>
    by_cases hc : isWsChar c = true
    · simp [skipWs, hc, ih]
    · simp only [Bool.not_eq_true] at hc
      rw [skipWs_cons_not hc, skipWs_cons_not hc]

theorem parseVal_congr (F : String → List String) (fuel : Nat)
    {s1 s2 : List Char} (h : skipWs s1 = skipWs s2) :
    parseVal F (fuel + 1) s1 = parseVal F (fuel + 1) s2 := by
  rw [parseVal, parseVal, h]

theorem parseFields_congr (F : String → List String) (fuel : Nat)
    {s1 s2 : List Char} (h : skipWs s1 = skipWs s2) :
    parseFields F (fuel + 1) s1 = parseFields F (fuel + 1) s2 := by
  rw [parseFields, parseFields, h]

theorem parseTupItems_congr (F : String → List String) (fuel : Nat)
    {s1 s2 : List Char} (h : skipWs s1 = skipWs s2) :
    parseTupItems F (fuel + 1) s1 = parseTupItems F (fuel + 1) s2 := by
  rw [parseTupItems, parseTupItems, h]

theorem dumpItems_false (F : String → List String) (key : String)
    (ns : List String) (v : Tree) (vs : List Tree) (ind : Nat) :
    dumpItems F (key :: ns) (v :: vs) ind false =
      ',' :: '\n' :: spacesC ind ++ dumpItems F (key :: ns) (v :: vs) ind true := by
  rw [dumpItems, dumpItems]
  simp

theorem dumpElems_false (F : String → List String) (v : Tree)
    (vs : List Tree) (ind : Nat) :
    dumpElems F (v :: vs) ind false =
      ',' :: '\n' :: spacesC ind ++ dumpElems F (v :: vs) ind true := by
  rw [dumpElems, dumpElems]
  simp

theorem strLit_no_quote {s : String} (h : strLitOK s = true) :
    s.data.all (fun c => !(c = '\'')) = true := by
  simp only [strLitOK, List.all_eq_true] at h ⊢
  intro c hc
  exact (Bool.and_eq_true _ _ ▸ ((Bool.and_eq_true _ _ ▸ h c hc).1)).1

theorem parseVal_prim (F : String → List String) (fuel : Nat) (p : Prim)
    (rest : List Char) (hwf : wfB F (.prim p) = true) (hr : RestOK rest) :
    parseVal F (fuel + 1) (primRepr p ++ rest) = some (.prim p, rest) := by
  cases p with
  | int i =>
    cases i with
    | ofNat n =>
      obtain ⟨hne, hdig⟩ := natRepr_shape n
      obtain ⟨d, ds', hds⟩ := List.exists_cons_of_ne_nil hne
      have hd : isDigitC d = true := by
        have := hdig
        rw [hds] at this
        simp only [List.all_cons, Bool.and_eq_true] at this
        exact this.1
      obtain ⟨hws, hp, hq, hm, _⟩ := digit_head_facts hd
      have htd : takeDigits (natRepr n ++ rest) = (natRepr n, rest) :=
        takeDigits_spec _ _ hdig (restOK_digits hr)
      rw [parseVal]
      have hrepr : primRepr (.int (.ofNat n)) ++ rest = d :: (ds' ++ rest) := by
        simp [primRepr, intRepr, hds]
      rw [hrepr, skipWs_cons_not hws]
      simp only [if_neg hp, if_neg hq, if_neg hm, if_pos hd]
      rw [show d :: (ds' ++ rest) = natRepr n ++ rest by simp [hds], htd]
      rcases hds' : natRepr n with _ | ⟨e, es⟩
      · exact absurd hds' hne
      · simp only
        rw [← hds', natRepr_val]
    | negSucc m =>
      obtain ⟨hne, hdig⟩ := natRepr_shape (m + 1)
      have htd : takeDigits (natRepr (m + 1) ++ rest) = (natRepr (m + 1), rest) :=
        takeDigits_spec _ _ hdig (restOK_digits hr)
      rw [parseVal]
      have hrepr : primRepr (.int (.negSucc m)) ++ rest =
          '-' :: (natRepr (m + 1) ++ rest) := by
        simp [primRepr, intRepr]
      rw [hrepr, skipWs_cons_not (by decide)]
      simp only [if_neg (by decide : ¬ ('-' : Char) = '('),
        if_neg (by decide : ¬ ('-' : Char) = '\''), if_pos rfl]
      rw [htd]
      rcases hds' : natRepr (m + 1) with _ | ⟨e, es⟩
      · exact absurd hds' hne
      · simp only
        rw [← hds', natRepr_val]
        simp only [if_pos trivial]
        rfl
  | str s =>
    have hnq := strLit_no_quote (by simpa [wfB] using hwf)
    rw [parseVal]
    have hrepr : primRepr (.str s) ++ rest = '\'' :: (s.data ++ '\'' :: rest) := by
      simp [primRepr]
    rw [hrepr, skipWs_cons_not (by decide)]
    simp only [if_neg (by decide : ¬ ('\'' : Char) = '('), if_pos rfl]
    rw [takeStr_spec s.data rest hnq]
    simp [stringMk_data]
  | boolv b =>
    cases b with
    | true =>
      rw [parseVal]
      have hrepr : primRepr (.boolv true) ++ rest =
          'T' :: ("rue".data ++ rest) := by simp [primRepr]
      rw [hrepr, skipWs_cons_not (by decide)]
      simp only [if_neg (by decide : ¬ ('T' : Char) = '('),
        if_neg (by decide : ¬ ('T' : Char) = '\''),
        if_neg (by decide : ¬ ('T' : Char) = '-'),
        if_neg (by decide : isDigitC 'T' = true → False),
        if_pos (by decide : (isAlphaC 'T' || 'T' = '_') = true)]
      rw [show 'T' :: ("rue".data ++ rest) = "True".data ++ rest by simp,
        takeIdent_spec "True".data rest (by decide) (restOK_ident hr)]
      simp
    | false =>
      rw [parseVal]
      have hrepr : primRepr (.boolv false) ++ rest =
          'F' :: ("alse".data ++ rest) := by simp [primRepr]
      rw [hrepr, skipWs_cons_not (by decide)]
      simp only [if_neg (by decide : ¬ ('F' : Char) = '('),
        if_neg (by decide : ¬ ('F' : Char) = '\''),
        if_neg (by decide : ¬ ('F' : Char) = '-'),
        if_neg (by decide : isDigitC 'F' = true → False),
        if_pos (by decide : (isAlphaC 'F' || 'F' = '_') = true)]
      rw [show 'F' :: ("alse".data ++ rest) = "False".data ++ rest by simp,
        takeIdent_spec "False".data rest (by decide) (restOK_ident hr)]
      simp
  | noneV =>
    rw [parseVal]
    have hrepr : primRepr .noneV ++ rest = 'N' :: ("one".data ++ rest) := by
      simp [primRepr]
    rw [hrepr, skipWs_cons_not (by decide)]
    simp only [if_neg (by decide : ¬ ('N' : Char) = '('),
      if_neg (by decide : ¬ ('N' : Char) = '\''),
      if_neg (by decide : ¬ ('N' : Char) = '-'),
      if_neg (by decide : isDigitC 'N' = true → False),
      if_pos (by decide : (isAlphaC 'N' || 'N' = '_') = true)]
    rw [show 'N' :: ("one".data ++ rest) = "None".data ++ rest by simp,
      takeIdent_spec "None".data rest (by decide) (restOK_ident hr)]
    simp

theorem identOK_head {s : String} (h : identOK s = true) :
    ∃ c cs, s.data = c :: cs ∧ (isAlphaC c || c = '_') = true ∧
      s.data.all isIdentChar = true := by
  rcases hd : s.data with _ | ⟨c, cs⟩
  · simp [identOK, hd] at h
  · simp only [identOK, hd, Bool.and_eq_true] at h
    exact ⟨c, cs, rfl, h.1, hd ▸ h.2⟩

theorem sizeT_pos (t : Tree) : 1 ≤ sizeT t := by
  cases t <;> simp [sizeT]

theorem sizeL_pos (l : List Tree) : 1 ≤ sizeL l := by
  cases l with
  | nil => simp [sizeL]
  | cons t ts => simp [sizeL]; omega

theorem wfB_node_parts {F : String → List String} {cls : String}
    {fs : List Tree} (h : wfB F (.node cls fs) = true) :
    identOK cls = true ∧ ¬ cls = "True" ∧ ¬ cls = "False" ∧
      ¬ cls = "None" ∧ ¬ cls = "PatVar" ∧ (F cls).length = fs.length ∧
      (F cls).all identOK = true ∧ wfList F fs = true := by
  simp only [wfB, Bool.and_eq_true, Bool.not_eq_true',
    decide_eq_false_iff_not, decide_eq_true_eq] at h
  exact ⟨h.1.1.1.1.1.1.1, h.1.1.1.1.1.1.2, h.1.1.1.1.1.2, h.1.1.1.1.2,
    h.1.1.1.2, h.1.1.2, h.1.2, h.2⟩

theorem dumpT_head (F : String → List String) (v : Tree) (ind : Nat)
    (hwf : wfB F v = true) :
    ∃ c cs, dumpT F v ind = c :: cs ∧ isWsChar c = false ∧ ¬ c = ')' := by
  cases v with
  | patvar id =>
    exact ⟨'P', "atVar(id = ".data ++ (primRepr (.str id) ++ [')']),
      by rw [dumpT]; simp, by decide, by decide⟩
  | node cls fs =>
    obtain ⟨hid, _⟩ := wfB_node_parts hwf
    obtain ⟨c, cs, hd, hhead, _⟩ := identOK_head hid
    refine ⟨c, cs ++ ('(' :: dumpItems F (F cls) fs (ind + cls.length + 1) true
      ++ [')']), ?_, (identHead_facts hhead).1,
      (identHead_facts hhead).2.2.2.2.2⟩
    rw [dumpT, hd]
    simp
  | tup es =>
    exact ⟨'(', (dumpElems F es (ind + 1) true ++
        (if es.length = 1 then [','] else [])) ++ [')'],
      by rw [dumpT]; simp, by decide, by decide⟩
  | prim p =>
    cases p with
    | int i =>
      cases i with
      | ofNat n =>
        obtain ⟨hne, hdig⟩ := natRepr_shape n
        obtain ⟨d, ds', hds⟩ := List.exists_cons_of_ne_nil hne
        have hd : isDigitC d = true := by
          rw [hds] at hdig
          simp only [List.all_cons, Bool.and_eq_true] at hdig
          exact hdig.1
        exact ⟨d, ds', by rw [dumpT]; simp [primRepr, intRepr, hds],
          (digit_head_facts hd).1, (digit_head_facts hd).2.2.2.2⟩
      | negSucc m =>
        exact ⟨'-', natRepr (m + 1),
          by rw [dumpT]; simp [primRepr, intRepr], by decide, by decide⟩
    | str s =>
      exact ⟨'\'', s.data ++ ['\''],
        by rw [dumpT]; simp [primRepr], by decide, by decide⟩
    | boolv b =>
      cases b with
      | true => exact ⟨'T', "rue".data,
          by rw [dumpT]; simp [primRepr], by decide, by decide⟩
      | false => exact ⟨'F', "alse".data,
          by rw [dumpT]; simp [primRepr], by decide, by decide⟩
    | noneV =>
      exact ⟨'N', "one".data,
        by rw [dumpT]; simp [primRepr], by decide, by decide⟩

/-- Round-trip statement for a single dumped value followed by a legal
suffix. -/
def RoundA (F : String → List String) (fuel : Nat) : Prop :=
  ∀ t ind rest, wfB F t = true → sizeT t ≤ fuel → RestOK rest →
    parseVal F fuel (dumpT F t ind ++ rest) = some (t, rest)

/-- Round-trip statement for a dumped field list up to its closing
parenthesis. -/
def RoundB (F : String → List String) (fuel : Nat) : Prop :=
  ∀ ns vs ind rest, ns.length = vs.length → ns.all identOK = true →
    wfList F vs = true → sizeL vs ≤ fuel →
    parseFields F fuel (dumpItems F ns vs ind true ++ ')' :: rest) =
      some (ns.zip vs, rest)

/-- Round-trip statement for dumped tuple elements up to the closing
parenthesis, with the singleton trailing comma when extraComma is set. -/
def RoundC (F : String → List String) (fuel : Nat) : Prop :=
  ∀ es extraComma ind rest, wfList F es = true → sizeL es ≤ fuel →
    (extraComma = true → es ≠ []) →
    parseTupItems F fuel (dumpElems F es ind true ++
        (if extraComma = true then [','] else []) ++ ')' :: rest) =
      some (es, rest)

theorem stepB (F : String → List String) (n : Nat)
    (ihA : RoundA F n) (ihB : RoundB F n) : RoundB F (n + 1) := by
  intro ns vs ind rest hlen hids hwfl hsz
  cases vs with
  | nil =>
    cases ns with
    | nil =>
      rw [parseFields,
        show dumpItems F ([] : List String) ([] : List Tree) ind true ++
          ')' :: rest = ')' :: rest from by rw [dumpItems]; rfl,
        skipWs_cons_not (by decide)]
      simp
    | cons n1 ns' => exact absurd hlen (by simp)
  | cons v vs' =>
    cases ns with
    | nil => exact absurd hlen (by simp)
    | cons n1 ns' =>
      simp only [List.length_cons] at hlen
      have hlen' : ns'.length = vs'.length := by omega
      simp only [List.all_cons, Bool.and_eq_true] at hids
      obtain ⟨hid1, hids'⟩ := hids
      simp only [wfList, Bool.and_eq_true] at hwfl
      obtain ⟨hwfv, hwfl'⟩ := hwfl
      simp only [sizeL] at hsz
      have hTpos := sizeT_pos v
      have hLpos := sizeL_pos vs'
      obtain ⟨c, cs, hd, hhead, hall⟩ := identOK_head hid1
      obtain ⟨hws, hlp, hq, hm, hdig, hrp⟩ := identHead_facts hhead
      have hin : dumpItems F (n1 :: ns') (v :: vs') ind true ++ ')' :: rest =
          c :: (cs ++ (' ' :: '=' :: ' ' ::
            (dumpT F v (n1.length + 3 + ind) ++
              (dumpItems F ns' vs' ind false ++ ')' :: rest)))) := by
        rw [dumpItems, hd]
        simp
      rw [parseFields, hin, skipWs_cons_not hws]
      simp only [if_neg hrp]
      rw [show c :: (cs ++ (' ' :: '=' :: ' ' ::
            (dumpT F v (n1.length + 3 + ind) ++
              (dumpItems F ns' vs' ind false ++ ')' :: rest)))) =
          (c :: cs) ++ (' ' :: '=' :: ' ' ::
            (dumpT F v (n1.length + 3 + ind) ++
              (dumpItems F ns' vs' ind false ++ ')' :: rest))) from rfl,
        takeIdent_spec (c :: cs) _ (hd ▸ hall)
          (Or.inr ⟨' ', _, rfl, by decide⟩)]
      simp only []
      rw [skipWs_space, skipWs_cons_not (by decide)]
      simp only [if_pos (rfl : ('=' : Char) = '=')]
      obtain ⟨k, rfl⟩ : ∃ k, n = k + 1 := ⟨n - 1, by omega⟩
      rw [parseVal_congr F k (skipWs_space _)]
      have hro : RestOK (dumpItems F ns' vs' ind false ++ ')' :: rest) := by
        cases vs' with
        | nil =>
          cases ns' with
          | nil =>
            right; right
            exact ⟨rest, by rw [dumpItems]; rfl⟩
          | cons n2 ns'' => simp at hlen'
        | cons v2 vs'' =>
          cases ns' with
          | nil => simp at hlen'
          | cons n2 ns'' =>
            right; left
            refine ⟨'\n' :: (spacesC ind ++
              (dumpItems F (n2 :: ns'') (v2 :: vs'') ind true ++
                ')' :: rest)), ?_⟩
            rw [dumpItems_false]
            simp
      rw [ihA v (n1.length + 3 + ind) _ hwfv (by omega) hro]
      simp only []
      cases vs' with
      | nil =>
        cases ns' with
        | cons n2 ns'' => simp at hlen'
        | nil =>
          rw [show dumpItems F ([] : List String) ([] : List Tree) ind false ++
              ')' :: rest = ')' :: rest from by rw [dumpItems]; rfl,
            skipWs_cons_not (by decide)]
          simp only [if_neg (show ¬ (')' : Char) = ',' by decide),
            if_pos (rfl : (')' : Char) = ')')]
          rw [show (c :: cs) = n1.data from hd.symm, stringMk_data]
          simp
      | cons v2 vs'' =>
        cases ns' with
        | nil => simp at hlen'
        | cons n2 ns'' =>
          rw [dumpItems_false]
          simp only [List.cons_append, List.append_assoc]
          rw [skipWs_cons_not (by decide)]
          simp only [if_pos (rfl : (',' : Char) = ',')]
          rw [parseFields_congr F k
            (show skipWs ('\n' :: (spacesC ind ++
                (dumpItems F (n2 :: ns'') (v2 :: vs'') ind true ++
                  ')' :: rest))) =
              skipWs (dumpItems F (n2 :: ns'') (v2 :: vs'') ind true ++
                ')' :: rest) from by
              rw [show ('\n' :: (spacesC ind ++
                  (dumpItems F (n2 :: ns'') (v2 :: vs'') ind true ++
                    ')' :: rest))) =
                ('\n' :: spacesC ind) ++
                  (dumpItems F (n2 :: ns'') (v2 :: vs'') ind true ++
                    ')' :: rest) from rfl, skipWs_delim])]
          rw [ihB (n2 :: ns'') (v2 :: vs'') ind rest (by simpa using hlen')
            hids' hwfl' (by omega)]
          rw [show (c :: cs) = n1.data from hd.symm, stringMk_data]
          simp

theorem stepC (F : String → List String) (n : Nat)
    (ihA : RoundA F n) (ihC : RoundC F n) : RoundC F (n + 1) := by
  intro es extraComma ind rest hwfl hsz hcomma
  cases es with
  | nil =>
    cases extraComma with
    | true => exact absurd rfl (hcomma rfl)
    | false =>
      rw [parseTupItems,
        show (dumpElems F ([] : List Tree) ind true ++
            (if (false = true) then [','] else [])) ++ ')' :: rest =
          ')' :: rest from by simp [dumpElems],
        skipWs_cons_not (by decide)]
      simp
  | cons v es' =>
    simp only [wfList, Bool.and_eq_true] at hwfl
    obtain ⟨hwfv, hwfl'⟩ := hwfl
    simp only [sizeL] at hsz
    have hTpos := sizeT_pos v
    have hLpos := sizeL_pos es'
    obtain ⟨c, cs, hdv, hws, hrp⟩ := dumpT_head F v ind hwfv
    have hin : (dumpElems F (v :: es') ind true ++
        (if extraComma = true then [','] else [])) ++ ')' :: rest =
        c :: (cs ++ (dumpElems F es' ind false ++
          ((if extraComma = true then [','] else []) ++ ')' :: rest))) := by
      rw [dumpElems, hdv]
      simp
    rw [parseTupItems, hin, skipWs_cons_not hws]
    simp only [if_neg hrp]
    rw [show c :: (cs ++ (dumpElems F es' ind false ++
          ((if extraComma = true then [','] else []) ++ ')' :: rest))) =
        dumpT F v ind ++ (dumpElems F es' ind false ++
          ((if extraComma = true then [','] else []) ++ ')' :: rest))
        from by rw [hdv, List.cons_append]]
    have hro : RestOK (dumpElems F es' ind false ++
        ((if extraComma = true then [','] else []) ++ ')' :: rest)) := by
      cases es' with
      | nil =>
        cases extraComma with
        | true =>
          right; left
          exact ⟨')' :: rest, by simp [dumpElems]⟩
        | false =>
          right; right
          exact ⟨rest, by simp [dumpElems]⟩
      | cons v2 es'' =>
        right; left
        refine ⟨'\n' :: (spacesC ind ++ (dumpElems F (v2 :: es'') ind true ++
          ((if extraComma = true then [','] else []) ++ ')' :: rest))), ?_⟩
        rw [dumpElems_false]
        simp
    rw [ihA v ind _ hwfv (by omega) hro]
    simp only []
    cases es' with
    | nil =>
      cases extraComma with
      | false =>
        rw [show dumpElems F ([] : List Tree) ind false ++
            ((if (false = true) then [','] else []) ++ ')' :: rest) =
            ')' :: rest from by simp [dumpElems],
          skipWs_cons_not (by decide)]
        simp only [if_neg (show ¬ (')' : Char) = ',' by decide),
          if_pos (rfl : (')' : Char) = ')')]
        simp
      | true =>
        rw [show dumpElems F ([] : List Tree) ind false ++
            ((if (true = true) then [','] else []) ++ ')' :: rest) =
            ',' :: ')' :: rest from by simp [dumpElems],
          skipWs_cons_not (by decide)]
        simp only [if_pos (rfl : (',' : Char) = ',')]
        have h0 := ihC [] false ind rest rfl (by
          rw [show sizeL ([] : List Tree) = 1 from rfl]
          omega) (by simp)
        rw [show (')' :: rest : List Char) =
            (dumpElems F ([] : List Tree) ind true ++
              (if (false = true) then [','] else [])) ++ ')' :: rest
            from by simp [dumpElems], h0]
        simp
    | cons v2 es'' =>
      rw [dumpElems_false]
      simp only [List.cons_append, List.append_assoc]
      rw [skipWs_cons_not (by decide)]
      simp only [if_pos (rfl : (',' : Char) = ',')]
      obtain ⟨k, rfl⟩ : ∃ k, n = k + 1 := ⟨n - 1, by omega⟩
      rw [parseTupItems_congr F k
        (show skipWs ('\n' :: (spacesC ind ++
            (dumpElems F (v2 :: es'') ind true ++
              ((if extraComma = true then [','] else []) ++ ')' :: rest)))) =
          skipWs ((dumpElems F (v2 :: es'') ind true ++
            (if extraComma = true then [','] else [])) ++ ')' :: rest) from by
          rw [show ('\n' :: (spacesC ind ++
              (dumpElems F (v2 :: es'') ind true ++
                ((if extraComma = true then [','] else []) ++ ')' :: rest)))) =
            ('\n' :: spacesC ind) ++
              (dumpElems F (v2 :: es'') ind true ++
                ((if extraComma = true then [','] else []) ++ ')' :: rest))
            from rfl, skipWs_delim, List.append_assoc])]
      rw [ihC (v2 :: es'') extraComma ind rest hwfl' (by omega)
        (fun _ => List.cons_ne_nil v2 es'')]
      simp

theorem stepA (F : String → List String) (hPV : F "PatVar" = ["id"])
    (n : Nat) (ihB : RoundB F n) (ihC : RoundC F n) : RoundA F (n + 1) := by
  intro t ind rest hwf hsz hr
  cases t with
  | prim p =>
    rw [show dumpT F (.prim p) ind = primRepr p from rfl]
    exact parseVal_prim F n p rest hwf hr
  | patvar id =>
    have hs : strLitOK id = true := by simpa [wfB] using hwf
    have hsz4 : (4 : Nat) ≤ n + 1 := by simpa [sizeT] using hsz
    rw [parseVal]
    rw [show dumpT F (.patvar id) ind ++ rest =
        'P' :: ("atVar".data ++ ('(' :: ("id = ".data ++
          (primRepr (.str id) ++ ')' :: rest)))) from by
      rw [dumpT]; simp]
    rw [skipWs_cons_not (by decide)]
    simp only [if_neg (show ¬ ('P' : Char) = '(' by decide),
      if_neg (show ¬ ('P' : Char) = '\'' by decide),
      if_neg (show ¬ ('P' : Char) = '-' by decide),
      if_neg (show ¬ isDigitC 'P' = true by decide),
      if_pos (show (isAlphaC 'P' || 'P' = '_') = true by decide)]
    rw [show 'P' :: ("atVar".data ++ ('(' :: ("id = ".data ++
          (primRepr (.str id) ++ ')' :: rest)))) =
        "PatVar".data ++ ('(' :: ("id = ".data ++
          (primRepr (.str id) ++ ')' :: rest))) from by simp]
    rw [takeIdent_spec "PatVar".data _ (by decide)
      (Or.inr ⟨'(', _, rfl, by decide⟩)]
    simp only []
    rw [show String.mk "PatVar".data = "PatVar" from rfl]
    simp only [if_neg (show ¬ ("PatVar" : String) = "True" by decide),
      if_neg (show ¬ ("PatVar" : String) = "False" by decide),
      if_neg (show ¬ ("PatVar" : String) = "None" by decide)]
    rw [skipWs_cons_not (by decide)]
    simp only [if_pos (rfl : ('(' : Char) = '(')]
    rw [show "id = ".data ++ (primRepr (.str id) ++ ')' :: rest) =
        dumpItems F ["id"] [.prim (.str id)] 0 true ++ ')' :: rest from by
      rw [dumpItems]; simp [dumpItems, dumpT]]
    rw [ihB ["id"] [.prim (.str id)] 0 rest (by simp) (by decide)
      (by simp [wfList, wfB, hs])
      (by rw [show sizeL [Tree.prim (Prim.str id)] = 3 from rfl]; omega)]
    rw [hPV]
    simp
  | node cls fs =>
    obtain ⟨hid, hnT, hnF, hnN, hnP, hlen, hidents, hwfl⟩ := wfB_node_parts hwf
    obtain ⟨c, cs, hd, hhead, hall⟩ := identOK_head hid
    obtain ⟨hws, hlp, hq, hm, hdig, hrp⟩ := identHead_facts hhead
    simp only [sizeT] at hsz
    rw [parseVal]
    rw [show dumpT F (.node cls fs) ind ++ rest =
        c :: (cs ++ ('(' :: (dumpItems F (F cls) fs (ind + cls.length + 1)
          true ++ ')' :: rest))) from by
      rw [dumpT, hd]; simp]
    rw [skipWs_cons_not hws]
    simp only [if_neg hlp, if_neg hq, if_neg hm,
      if_neg (show ¬ isDigitC c = true by simp [hdig]), if_pos hhead]
    rw [show c :: (cs ++ ('(' :: (dumpItems F (F cls) fs
          (ind + cls.length + 1) true ++ ')' :: rest))) =
        (c :: cs) ++ ('(' :: (dumpItems F (F cls) fs (ind + cls.length + 1)
          true ++ ')' :: rest)) from rfl,
      takeIdent_spec (c :: cs) _ (hd ▸ hall)
        (Or.inr ⟨'(', _, rfl, by decide⟩)]
    simp only []
    rw [show String.mk (c :: cs) = cls from by rw [← hd]]
    simp only [if_neg hnT, if_neg hnF, if_neg hnN]
    rw [skipWs_cons_not (by decide)]
    simp only [if_pos (rfl : ('(' : Char) = '(')]
    rw [ihB (F cls) fs (ind + cls.length + 1) rest hlen hidents hwfl
      (by omega)]
    simp only []
    rw [if_pos (List.map_fst_zip (F cls) fs (le_of_eq hlen)), if_neg hnP,
      List.map_snd_zip (F cls) fs (le_of_eq hlen.symm)]
    simp
  | tup es =>
    have hwfl : wfList F es = true := by simpa [wfB] using hwf
    simp only [sizeT] at hsz
    rw [parseVal]
    rw [show dumpT F (.tup es) ind ++ rest =
        '(' :: ((dumpElems F es (ind + 1) true ++
          (if es.length = 1 then [','] else [])) ++ ')' :: rest) from by
      rw [dumpT]; simp]
    rw [skipWs_cons_not (by decide)]
    simp only [if_pos (rfl : ('(' : Char) = '(')]
    rw [show (if es.length = 1 then ([','] : List Char) else []) =
        (if (decide (es.length = 1)) = true then [','] else []) from by
      by_cases h1 : es.length = 1 <;> simp [h1]]
    rw [ihC es (decide (es.length = 1)) (ind + 1) rest hwfl (by omega)
      (fun h => by
        have h1 := of_decide_eq_true h
        intro he
        rw [he] at h1
        simp at h1)]
    simp

theorem dumpParse_all (F : String → List String)
    (hPV : F "PatVar" = ["id"]) :
    ∀ fuel : Nat, RoundA F fuel ∧ RoundB F fuel ∧ RoundC F fuel := by
  intro fuel
  induction fuel with
  | zero =>
    refine ⟨?_, ?_, ?_⟩
    · intro t ind rest _ hsz _
      exact absurd hsz (by have := sizeT_pos t; omega)
    · intro ns vs ind rest _ _ _ hsz
      exact absurd hsz (by have := sizeL_pos vs; omega)
    · intro es extraComma ind rest _ hsz _
      exact absurd hsz (by have := sizeL_pos es; omega)
  | succ n ih =>
    exact ⟨stepA F hPV n ih.2.1 ih.2.2, stepB F n ih.1 ih.2.1,
      stepC F n ih.1 ih.2.2⟩

/-- C9: for every tree whose primitive leaves are reconstructible from
their textual representations (well-formed class names and field
tables, escape-free strings), re-evaluating the textual dump of the
tree - TypeName(field = value, ...) for nodes, parenthesized
comma-separated form for sequences with a trailing comma for
singletons - yields exactly the original tree, with no text left over:
parse(print(tree)) == tree. -/
theorem dump_parse_roundtrip (F : String → List String) (t : Tree)
    (fuel : Nat) (hPV : F "PatVar" = ["id"]) (hwf : wfB F t = true)
    (hfuel : sizeT t ≤ fuel) :
    parseVal F fuel (dump F t).data = some (t, []) := by
  have h := (dumpParse_all F hPV fuel).1 t 0 [] hwf hfuel (Or.inl rfl)
  simpa [dump] using h

/-- Field table of the witness language: a PatVar node with field id,
a Num node with field n, a Pair node with fields a and b. -/
def W9F : String → List String :=
  fun s =>
    if s = "PatVar" then ["id"]
    else if s = "Num" then ["n"]
    else if s = "Pair" then ["a", "b"]
    else []

/-- Witness tree exercising nodes, tuples, pattern variables and every
primitive shape. -/
def W9t : Tree :=
  .node "Pair"
    [.tup [.patvar "_X", .prim (.int (-12)), .prim (.str "hi")],
     .node "Num" [.tup [.prim (.boolv true), .prim .noneV,
       .prim (.int 345)]]]

theorem dump_parse_roundtrip_witness :
    parseVal W9F 40 (dump W9F W9t).data = some (W9t, []) :=
  dump_parse_roundtrip W9F W9t 40 rfl (by decide) (by decide)

end Iast
